import Mathlib

set_option maxHeartbeats 1000000

/-!
Shallow embedding of `ckl.py`: the checklist data model (classes `Item` and
`Checklist`), the merge engine, the indentation parser with duplicate
tracking, session serialization, and the undo/control layer.

Conventions used throughout:
* Python strings become `String`, with the Python primitives (`strip`,
  `startswith`, `split`, `replace`) re-implemented below over character
  lists so that they compute inside the kernel.
* Lines are modelled without their trailing newline: every operation the
  parser applies to a line (`startswith`, leading-space count, `strip`,
  `split`) is insensitive to a trailing `'\n'`.
* Fallible operations (Python exceptions) return `Except PErr`.
* In-place mutation of a tree node reached through an object reference is
  modelled by addressing the node with its path from the root; the tree's
  shape never changes after parsing, so paths are stable references.
-/

/-- Error kinds standing for the Python exceptions the modelled code can
raise: running out of recursion fuel, a missing file (`IOError`), popping
from an empty list (`IndexError`), and calling a missing method /
accessing a missing attribute (`AttributeError`). -/
inductive PErr where
  | noFuel
  | ioError
  | indexError
  | attrError
deriving DecidableEq, Repr

/-- The `Item` / `Checklist` tree of `ckl.py`: `leaf` is a plain `Item`,
`checklist` is a `Checklist` (an `Item` with an ordered `_items` list).
Names are stored as the (already stripped) `name` attribute. -/
inductive Item where
  | leaf (name : String) (checked : Bool)
  | checklist (name : String) (checked : Bool) (items : List Item)

/-- The `name` attribute. -/
def Item.name : Item → String
  | .leaf n _ => n
  | .checklist n _ _ => n

/-- The `checked` attribute. -/
def Item.checked : Item → Bool
  | .leaf _ c => c
  | .checklist _ c _ => c

/-- `hasattr(x, 'items')`: discriminates `Checklist` from plain `Item`. -/
def Item.isComposite : Item → Bool
  | .leaf _ _ => false
  | .checklist _ _ _ => true

/-- The `_items` attribute (direct children; empty for a leaf). -/
def Item.children : Item → List Item
  | .leaf _ _ => []
  | .checklist _ _ its => its

mutual
/-- `Item.check` / `Checklist.check`: set the own flag; a composite also
propagates the same value to every child recursively. -/
def Item.check (c : Bool) : Item → Item
  | .leaf n _ => .leaf n c
  | .checklist n _ its => .checklist n c (Item.checkList c its)

/-- The `for item in self._items: item.check(checked)` loop. -/
def Item.checkList (c : Bool) : List Item → List Item
  | [] => []
  | x :: xs => Item.check c x :: Item.checkList c xs
end

mutual
/-- `Checklist.items()`: pre-order flattening of all descendants (the node
itself is not included). -/
def Item.items : Item → List Item
  | .leaf _ _ => []
  | .checklist _ _ its => Item.itemsList its

/-- The body of the `items` loop over `self._items`. -/
def Item.itemsList : List Item → List Item
  | [] => []
  | x :: xs => x :: (Item.items x ++ Item.itemsList xs)
end

mutual
/-- `Checklist.merge(other)`.  A leaf receiver models the `AttributeError`
Python raises (`Item` defines no `merge`); a leaf argument likewise fails
when its `_items` attribute is read.  The Python recursion descends into
structurally smaller pieces of `other` and so always terminates; the
explicit `fuel` only keeps the Lean recursion structural (any
`fuel > sizeOf other` is enough, and every theorem below quantifies over
sufficient fuel). -/
def Item.merge : Nat → Item → Item → Except PErr Item
  | 0, _, _ => .error .noFuel
  | _ + 1, .leaf _ _, _ => .error .attrError
  | _ + 1, .checklist _ _ _, .leaf _ _ => .error .attrError
  | fuel + 1, .checklist n c its, .checklist _ _ oits =>
    match Item.mergeList fuel its oits with
    | .ok its2 => .ok (.checklist n c its2)
    | .error e => .error e

/-- The `for other_item in other._items` loop of `merge`, threading the
receiver's (mutated-in-place) child list. -/
def Item.mergeList : Nat → List Item → List Item → Except PErr (List Item)
  | 0, _, _ => .error .noFuel
  | _ + 1, its, [] => .ok its
  | fuel + 1, its, o :: os =>
    match Item.mergeOne fuel its o with
    | .ok its2 => Item.mergeList fuel its2 os
    | .error e => .error e

/-- One iteration of the merge loop: find the first same-named direct child
of the receiver; if found and `other`'s child is composite, merge into the
found child in place; if found otherwise, drop `other`'s child; if not
found, append `other`'s child. -/
def Item.mergeOne : Nat → List Item → Item → Except PErr (List Item)
  | 0, _, _ => .error .noFuel
  | fuel + 1, its, o =>
    match its.findIdx? (fun i => i.name == o.name) with
    | some idx =>
      if o.isComposite then
        match its[idx]? with
        | some found =>
          match Item.merge fuel found o with
          | .ok m => .ok (its.set idx m)
          | .error e => .error e
        | none => .ok its
      else .ok its
    | none => .ok (its ++ [o])
end

/-! ## Python string helpers

The Lean core `String` functions (`trim`, `startsWith`, `splitOn`, ...) are
compiled over byte positions and do not reduce inside the kernel, so the
Python string primitives are re-implemented here over character lists with
CPython's exact semantics. -/

/-- The characters `str.strip()` removes (Python's ASCII whitespace). -/
def isPySpace (c : Char) : Bool :=
  c == ' ' || c == '\t' || c == '\n' || c == '\r' || c == '\x0b' || c == '\x0c'

/-- `str.strip()`: remove leading and trailing whitespace. -/
def pyStrip (s : String) : String :=
  ⟨((s.toList.dropWhile isPySpace).reverse.dropWhile isPySpace).reverse⟩

/-- `str.startswith(pre)`. -/
def pyStartsWith (s pre : String) : Bool :=
  pre.toList.isPrefixOf s.toList

/-- CPython `str.replace(pat, rep)` on character lists: scan left to right,
replace each non-overlapping occurrence of `pat` (taken non-empty).  The
first argument counts characters still to be skipped over after a match
(the matched occurrence minus the character already consumed), which keeps
the recursion structural on the scanned list. -/
def replSkip (pat rep : List Char) : Nat → List Char → List Char
  | _, [] => []
  | k + 1, _ :: cs => replSkip pat rep k cs
  | 0, c :: cs =>
    if pat.isPrefixOf (c :: cs) && !pat.isEmpty then
      rep ++ replSkip pat rep (pat.length - 1) cs
    else
      c :: replSkip pat rep 0 cs

/-- `str.replace` lifted to `String`. -/
def pyReplace (s pat rep : String) : String :=
  ⟨replSkip pat.toList rep.toList 0 s.toList⟩

/-- `str.split(sep)` (with explicit separator): split on every
non-overlapping occurrence, left to right.  The counter argument skips the
remainder of a matched separator, keeping the recursion structural. -/
def pySplitGo (sep : List Char) : Nat → List Char → List Char → List (List Char)
  | _, acc, [] => [acc.reverse]
  | k + 1, acc, _ :: cs => pySplitGo sep k acc cs
  | 0, acc, c :: cs =>
    if sep.isPrefixOf (c :: cs) && !sep.isEmpty then
      acc.reverse :: pySplitGo sep (sep.length - 1) [] cs
    else
      pySplitGo sep 0 (c :: acc) cs

/-- `str.split(sep)` lifted to `String`. -/
def pySplit (s sep : String) : List String :=
  (pySplitGo sep.toList 0 [] s.toList).map (fun l => ⟨l⟩)

/-- Whether `pat` occurs as a contiguous sublist of `l`. -/
def hasPat (pat : List Char) : List Char → Bool
  | [] => false
  | c :: cs => pat.isPrefixOf (c :: cs) || hasPat pat cs

/-- `len(line) - len(line.lstrip(' '))`: the count of leading space
characters (only `' '`, exactly as `lstrip(' ')`). -/
def leadingSpaces (l : String) : Nat :=
  (l.toList.takeWhile (fun c => c == ' ')).length

/-- `os.path.basename`: everything after the last `/`. -/
def osBasename (p : String) : String :=
  (pySplit p "/").getLastD p

def LISTS_ROOT : String := "lists"

def SESSIONS_ROOT : String := "sessions"

/-- `ChecklistSession.__init__`: the session path is the checklist path with
`str.replace(LISTS_ROOT, SESSIONS_ROOT)` applied to it. -/
def ChecklistSession.path_to_session (path_to_checklist : String) : String :=
  pyReplace path_to_checklist LISTS_ROOT SESSIONS_ROOT

/-! ## Parser state: the shared duplicate-tracking map -/

/-- One registration in the duplicate map: `(item, path, linenum)`, with the
item's Python object identity modelled by a unique sequence number. -/
structure Reg where
  seq : Nat
  path : String
  linenum : Nat
deriving DecidableEq, Repr

/-- The shared `items` dict: insertion-ordered `name → occurrence list`. -/
abbrev DupMap := List (String × List Reg)

/-- Parser bookkeeping shared across all `ChecklistParser` instances of one
process (the mutable default argument `items={}` plus the fresh-identity
counter). -/
structure PSt where
  reg : DupMap
  nextSeq : Nat
deriving DecidableEq, Repr

/-- `items.setdefault(name, []).append(entry)`. -/
def setdefaultAppend : DupMap → String → Reg → DupMap
  | [], n, r => [(n, [r])]
  | (k, rs) :: m, n, r =>
    if k == n then (k, rs ++ [r]) :: m
    else (k, rs) :: setdefaultAppend m n r

/-- `ChecklistParser.pop_item`'s de-registration:
`items[name] = [i for i in items[name] if i[0] != item]`
(identity compared through the sequence number; `none` — an unregistered
composite — matches no entry). -/
def removeReg : DupMap → String → Option Nat → DupMap
  | [], _, _ => []
  | (k, rs) :: m, n, oseq =>
    if k == n then (k, rs.filter (fun r => oseq != some r.seq)) :: m
    else (k, rs) :: removeReg m n oseq

/-- Lookup of a name's occurrence list (missing key: `[]`). -/
def regLookup : DupMap → String → List Reg
  | [], _ => []
  | (k, rs) :: m, n => if k == n then rs else regLookup m n

/-- `ChecklistParser.dups()`: every occurrence of every name registered more
than once, in map insertion order, as `(name, path, linenum)` triples (the
dialog renders each tuple through the item's `__str__`, i.e. its name). -/
def ChecklistParser.dups : DupMap → List (String × String × Nat)
  | [] => []
  | (k, rs) :: m =>
    (if 1 < rs.length then rs.map (fun r => (k, r.path, r.linenum)) else [])
      ++ ChecklistParser.dups m

/-! ## The parser -/

/-- The filesystem under which the program runs: path → lines (without
trailing newlines, see the header note). -/
abbrev FS := List (String × List String)

/-- `open(path)` + `readlines()`. -/
def fsRead (fs : FS) (p : String) : Option (List String) :=
  (fs.find? (fun e => e.1 == p)).map (fun e => e.2)

/-- `self.checklist.name = n` (a raw attribute write, no stripping). -/
def Item.setName (n : String) : Item → Item
  | .leaf _ c => .leaf n c
  | .checklist _ c its => .checklist n c its

/-- `for p in parents[1:]: parents[0].merge(p)`. -/
def mergeFold (fuel : Nat) (acc : Item) : List Item → Except PErr Item
  | [] => .ok acc
  | p :: ps =>
    match Item.merge fuel acc p with
    | .ok acc2 => mergeFold fuel acc2 ps
    | .error e => .error e

/-- Result of one `loads` call: the produced tree, the lines left unconsumed
for the caller, and the updated shared state. -/
structure LoopOut where
  tree : Item
  rest : List String
  st : PSt

/-- The tail of `ChecklistParser.loads` after the line loop: if any `from:`
parents accumulated, merge the own tree into the chain and override the
result's name with the parser's own name. -/
def ChecklistParser.finish (fuel : Nat) (name : String)
    (w : List (Item × Option Nat)) (parents : List Item)
    (rest : List String) (st : PSt) : Except PErr LoopOut :=
  let own := Item.checklist (pyStrip name) false (w.map Prod.fst)
  match parents with
  | [] => .ok ⟨own, rest, st⟩
  | p0 :: ps =>
    match mergeFold fuel p0 (ps ++ [own]) with
    | .ok t => .ok ⟨Item.setName name t, rest, st⟩
    | .error e => .error e

mutual
/-- `ChecklistParser.load`: read the file at `path` and parse it with a fresh
parser sharing the duplicate map (parser name: basename minus `.ckl`). -/
def ChecklistParser.load (fuel : Nat) (fs : FS) (path : String) (st : PSt) :
    Except PErr (Item × PSt) :=
  match fuel with
  | 0 => .error .noFuel
  | fuel + 1 =>
    match fsRead fs path with
    | none => .error .ioError
    | some lines =>
      match ChecklistParser.loads fuel fs path
          (pyReplace (osBasename path) ".ckl" "") [] [] lines 0 0 st with
      | .ok out => .ok (out.tree, out.st)
      | .error e => .error e
termination_by structural fuel

/-- `ChecklistParser.loads`: the line loop.  `w` is the working `_items`
list (each child paired with its registration sequence number, standing for
Python object identity; `none` for composites appended without
registration); `parents` accumulates merged `from:` trees. -/
def ChecklistParser.loads (fuel : Nat) (fs : FS) (path name : String)
    (w : List (Item × Option Nat)) (parents : List Item)
    (lines : List String) (indent linenum : Nat) (st : PSt) :
    Except PErr LoopOut :=
  match fuel with
  | 0 => .error .noFuel
  | fuel + 1 =>
    match lines with
    | [] => ChecklistParser.finish fuel name w parents [] st
    | line :: rest =>
      let ln := linenum + 1
      if pyStartsWith line "#" then
        ChecklistParser.loads fuel fs path name w parents rest indent ln st
      else if pyStartsWith line "from:" then
        let pname := pyStrip ((pySplit line "from:").getD 1 "")
        let ppath := LISTS_ROOT ++ "/" ++ pname ++ ".ckl"
        match ChecklistParser.load fuel fs ppath st with
        | .error e => .error e
        | .ok (ptree, st1) =>
          match Item.merge fuel ptree
              (Item.checklist (pyStrip name) false (w.map Prod.fst)) with
          | .error e => .error e
          | .ok merged =>
            ChecklistParser.loads fuel fs path name w (parents ++ [merged])
              rest indent ln st1
      else
        let newIndent := leadingSpaces line
        if newIndent == indent then
          let st1 : PSt :=
            ⟨setdefaultAppend st.reg (pyStrip line) ⟨st.nextSeq, path, ln⟩,
             st.nextSeq + 1⟩
          ChecklistParser.loads fuel fs path name
            (w ++ [(Item.leaf (pyStrip line) false, some st.nextSeq)]) parents
            rest indent ln st1
        else if indent < newIndent then
          match w.getLast? with
          | none => .error .indexError
          | some (pit, oseq) =>
            let st1 : PSt := ⟨removeReg st.reg pit.name oseq, st.nextSeq⟩
            match ChecklistParser.loads fuel fs path pit.name [] []
                (line :: rest) newIndent (ln - 1) st1 with
            | .error e => .error e
            | .ok sub =>
              ChecklistParser.loads fuel fs path name
                (w.dropLast ++ [(sub.tree, none)]) parents sub.rest indent
                ((ln + rest.length) - sub.rest.length) sub.st
        else
          ChecklistParser.finish fuel name w parents (line :: rest) st
termination_by structural fuel
end

/-! ## Session serialization -/

/-- The JSON-level document `ChecklistSession.dumps` produces and `loads`
consumes: `{name, checked}` with an optional `items` array (leaves omit
it).  `json.dumps` / `json.loads` are mutually inverse on these documents,
so the string layer is the identity at this level. -/
inductive JDict where
  | mk (name : String) (checked : Bool) (items : Option (List JDict))

/-- The `name` field. -/
def JDict.name : JDict → String
  | .mk n _ _ => n

/-- The `checked` field. -/
def JDict.checked : JDict → Bool
  | .mk _ c _ => c

/-- The optional `items` field. -/
def JDict.items : JDict → Option (List JDict)
  | .mk _ _ its => its

mutual
/-- `to_dict(ckl)`: serialize the children of a composite. -/
def to_dictList : List Item → List JDict
  | [] => []
  | x :: xs => to_dictOne x :: to_dictList xs

/-- One child in `to_dict`'s loop: composites gain an `items` field. -/
def to_dictOne : Item → JDict
  | .leaf n c => .mk n c none
  | .checklist n c its => .mk n c (some (to_dictList its))
end

/-- `ChecklistSession.dumps`: the top-level dict always carries `items`;
a leaf at the top level would crash on `checklist._items` in Python. -/
def ChecklistSession.dumps : Item → Except PErr JDict
  | .leaf _ _ => .error .attrError
  | .checklist n c its => .ok (.mk n c (some (to_dictList its)))

mutual
/-- `from_dict`: the leaf/composite distinction is recovered purely from the
presence of the `items` field; names pass through the `Item`/`Checklist`
constructors, which strip them. -/
def from_dict : JDict → Item
  | .mk n c none => .leaf (pyStrip n) c
  | .mk n c (some ds) => .checklist (pyStrip n) c (from_dictList ds)

/-- `from_dict` over an `items` array. -/
def from_dictList : List JDict → List Item
  | [] => []
  | d :: ds => from_dict d :: from_dictList ds
end

/-- `ChecklistSession.loads` (after `json.loads`). -/
def ChecklistSession.loads (d : JDict) : Item :=
  from_dict d

mutual
/-- All names in the tree are fixed points of stripping — true of every tree
the program builds, since the `Item` constructor strips. -/
def Item.wfNames : Item → Bool
  | .leaf n _ => pyStrip n == n
  | .checklist n _ its => pyStrip n == n && Item.wfNamesList its

/-- `wfNames` over a child list. -/
def Item.wfNamesList : List Item → Bool
  | [] => true
  | x :: xs => Item.wfNames x && Item.wfNamesList xs
end

/-! ## The control layer: paths, undo stack, key handlers -/

/-- A path from the root to a node: the child index at each level.  It
models a Python object reference into the tree; the tree's shape never
changes after parsing, so the addressing is stable. -/
abbrev TPath := List Nat

/-- Replace the element at an index (out of range: unchanged). -/
def modIdx (f : Item → Item) : Nat → List Item → List Item
  | _, [] => []
  | 0, x :: xs => f x :: xs
  | k + 1, x :: xs => x :: modIdx f k xs

/-- Dereference a path. -/
def Item.lookupAt : TPath → Item → Option Item
  | [], t => some t
  | _ :: _, .leaf _ _ => none
  | k :: p, .checklist _ _ its => its[k]?.bind (Item.lookupAt p)

/-- Apply `f` to the node a path points at (dangling path: no-op). -/
def Item.modifyAt (f : Item → Item) : TPath → Item → Item
  | [], t => f t
  | _ :: _, .leaf n c => .leaf n c
  | k :: p, .checklist n c its => .checklist n c (modIdx (Item.modifyAt f p) k its)

/-- `item.check(b)` on the node a path points at. -/
def Item.checkAt (p : TPath) (b : Bool) (t : Item) : Item :=
  Item.modifyAt (Item.check b) p t

mutual
/-- The paths of `Item.items` in the same pre-order. -/
def Item.prePaths : Item → List TPath
  | .leaf _ _ => []
  | .checklist _ _ its => prePathsList 0 its

/-- Paths of the flattening of a child list, children numbered from `k`. -/
def prePathsList (k : Nat) : List Item → List TPath
  | [] => []
  | x :: xs =>
    [k] :: (Item.prePaths x).map (fun q => k :: q) ++ prePathsList (k + 1) xs
end

/-- A frame of `ChecklistControl.undo_stack`: either `(item, bool)` or the
descendant-flags snapshot `(item, [bool])` pushed for composites. -/
inductive Frame where
  | scalar (p : TPath) (b : Bool)
  | snap (p : TPath) (bs : List Bool)
deriving DecidableEq, Repr

/-- The state `ChecklistControl` owns. -/
structure Ctl where
  tree : Item
  undo_stack : List Frame
  show_completed : Bool
  cursorY : Nat

/-- `ChecklistControl.undo_push(item)`: for a composite, first the snapshot
of all descendant flags (pre-order), then always `(item, item.checked)` on
top. -/
def ChecklistControl.undo_push (p : TPath) (c : Ctl) : Ctl :=
  match Item.lookupAt p c.tree with
  | none => c
  | some it =>
    if it.isComposite then
      { c with undo_stack :=
          .scalar p it.checked
            :: .snap p ((Item.items it).map Item.checked) :: c.undo_stack }
    else
      { c with undo_stack := .scalar p it.checked :: c.undo_stack }

/-- The sequential mutation `for i, checked in zip(items, flags):
i.check(checked)`, as a fold of path-addressed `check` calls. -/
def foldCheck : List (TPath × Bool) → Item → Item
  | [], t => t
  | (q, b) :: ps, t => foldCheck ps (Item.checkAt q b t)

/-- `ChecklistControl.undo_pop`: pop `(item, checked)`, reapply it; for a
composite pop the snapshot frame and reapply each descendant's flag in the
recorded pre-order (`zip` truncates to the shorter list).  Returns the
popped item (for cursor repositioning) and the new state.  `none` models
the paths Python cannot take from well-formed stacks (popping an empty
stack, a snapshot on top, a dangling reference). -/
def ChecklistControl.undo_pop_snapshot (c : Ctl) (t1 : Item) :
    List Frame → Option (TPath × Ctl)
  | .snap p2 bs :: rest2 =>
    match Item.lookupAt p2 t1 with
    | none => none
    | some it2 =>
      let pairs := ((Item.prePaths it2).map (fun q => p2 ++ q)).zip bs
      some (p2, { c with tree := foldCheck pairs t1, undo_stack := rest2 })
  | _ => none

def ChecklistControl.undo_pop (c : Ctl) : Option (TPath × Ctl) :=
  match c.undo_stack with
  | [] => none
  | .snap _ _ :: _ => none
  | .scalar p b :: rest =>
    match Item.lookupAt p c.tree with
    | none => none
    | some it =>
      let t1 := Item.checkAt p b c.tree
      if it.isComposite then
        ChecklistControl.undo_pop_snapshot c t1 rest
      else
        some (p, { c with tree := t1, undo_stack := rest })

/-- `ChecklistControl.displayed_items`, as paths: all pre-order descendants,
or only the unchecked ones unless `show_completed`. -/
def ChecklistControl.displayedPaths (c : Ctl) : List TPath :=
  if c.show_completed then Item.prePaths c.tree
  else
    (Item.prePaths c.tree).filter (fun p =>
      match Item.lookupAt p c.tree with
      | some it => !it.checked
      | none => false)

/-- `adjust_cursor_position()` with no arguments: clamp the cursor into the
displayed range. -/
def ChecklistControl.adjust (c : Ctl) : Ctl :=
  let n := (ChecklistControl.displayedPaths c).length
  if n == 0 then { c with cursorY := 0 }
  else if n ≤ c.cursorY then { c with cursorY := n - 1 }
  else c

/-- The `space` key binding: toggle the item under the cursor, push undo,
persist, adjust the cursor, and report whether the completed dialog is
shown (`session.dump` does not change control state and is omitted here).
`none` is the `IndexError` of a cursor outside the displayed list. -/
def ChecklistControl.onSpace (c : Ctl) : Option (Ctl × Bool) :=
  let dp := ChecklistControl.displayedPaths c
  if dp.isEmpty then some (c, false)
  else
    match dp[c.cursorY]? with
    | none => none
    | some p =>
      match Item.lookupAt p c.tree with
      | none => none
      | some it =>
        let c1 := ChecklistControl.undo_push p c
        let c2 := { c1 with tree := Item.checkAt p (!it.checked) c1.tree }
        let c3 := ChecklistControl.adjust c2
        some (c3, ((Item.items c3.tree).filter (fun i => !i.checked)).isEmpty)

/-- `ResetConfirmationDialog.yes_handler`: clear the undo stack, run
`i.uncheck()` over the flattened pre-order items, persist, then adjust the
cursor.  Returns the new state and the persisted document. -/
def ResetConfirmationDialog.yes_handler (c : Ctl) : Ctl × Except PErr JDict :=
  let t1 := foldCheck ((Item.prePaths c.tree).map (fun q => (q, false))) c.tree
  let c1 := ChecklistControl.adjust { c with tree := t1, undo_stack := [] }
  (c1, ChecklistSession.dumps t1)

/-- An interactive step that touches the undo stack: a toggle's `undo_push`
or the `z` key's guarded `undo_pop`. -/
inductive UndoOp where
  | push (p : TPath)
  | pop

/-- Execute one undo-stack step (the `z` binding pops only when the stack is
non-empty). -/
def undoStep (c : Ctl) : UndoOp → Option Ctl
  | .push p => some (ChecklistControl.undo_push p c)
  | .pop =>
    if c.undo_stack.isEmpty then some c
    else
      match ChecklistControl.undo_pop c with
      | some (_, c2) => some c2
      | none => none

/-- Execute a sequence of undo-stack steps. -/
def undoRun (c : Ctl) : List UndoOp → Option Ctl
  | [] => some c
  | op :: ops =>
    match undoStep c op with
    | some c2 => undoRun c2 ops
    | none => none

mutual
/-- Well-formedness of the undo stack over a tree: the top of every suffix
is a `(item, bool)` frame; a composite's scalar frame is directly followed
by its own snapshot frame; every referenced path dereferences. -/
def stackOK (t : Item) : List Frame → Bool
  | [] => true
  | .snap _ _ :: _ => false
  | .scalar p _ :: rest =>
    match Item.lookupAt p t with
    | none => false
    | some it =>
      if it.isComposite then stackSnapOK t p rest
      else stackOK t rest

/-- The shape required below a composite's scalar frame: its own snapshot
frame directly beneath, then a well-formed remainder. -/
def stackSnapOK (t : Item) (p : TPath) : List Frame → Bool
  | .snap p2 _ :: rest2 => p == p2 && stackOK t rest2
  | _ => false
end

mutual
/-- Erase all checked flags: two trees with equal `stripFlags` have the same
shape and names (only flags may differ). -/
def Item.stripFlags : Item → Item
  | .leaf n _ => .leaf n false
  | .checklist n _ its => .checklist n false (stripFlagsList its)

/-- `stripFlags` over a child list. -/
def stripFlagsList : List Item → List Item
  | [] => []
  | x :: xs => Item.stripFlags x :: stripFlagsList xs
end

/-! ## Merge: kind-mismatch behaviour (claim C1) -/

/-- Helper: merging into a leaf receiver always raises. -/
theorem Item.merge_leaf_error (fuel : Nat) (n : String) (c : Bool) (o : Item) :
    Item.merge (fuel + 1) (.leaf n c) o = .error .attrError := by
  simp [Item.merge]

/-- C1 (counterexample): with `t = checklist "t" [leaf "a"]` and
`other = checklist "o" [checklist "a"]`, the same-name collision between a
leaf of `t` and a composite child of `other` does not silently drop the
child — the merge raises (`Item` has no `merge` attribute), contradicting
the claim that the merge completes without error in both mismatch
directions. -/
theorem C1_counterexample :
    Item.merge 10 (.checklist "t" false [.leaf "a" false])
      (.checklist "o" false [.checklist "a" false []]) = .error .attrError := rfl

/-- C1 (amended): when a child of `other` collides by name with a direct
child of the receiver, then (a) if `other`'s child is a leaf, it is dropped
and the receiver's children are left entirely unchanged, whatever the kind
of the found match, with no error; but (b) if `other`'s child is a
composite and the found match is a leaf, the merge step raises
`AttributeError` instead of dropping the child. -/
theorem C1_merge_kind_mismatch (fuel : Nat) (its : List Item) (o : Item)
    (idx : Nat) (found : Item)
    (hfind : its.findIdx? (fun i => i.name == o.name) = some idx)
    (hget : its[idx]? = some found) :
    (o.isComposite = false → Item.mergeOne (fuel + 1) its o = .ok its) ∧
    (o.isComposite = true → found.isComposite = false →
      Item.mergeOne (fuel + 2) its o = .error .attrError) := by
  constructor
  · intro ho
    simp [Item.mergeOne, hfind, ho]
  · intro ho hf
    have hm : Item.merge (fuel + 1) found o = .error .attrError := by
      cases found with
      | leaf n c => exact Item.merge_leaf_error fuel n c o
      | checklist n c its2 => simp [Item.isComposite] at hf
    simp [Item.mergeOne, hfind, ho, hget, hm]

/-- C1 (witness): both branches of the amended statement at concrete
inputs. -/
theorem C1_merge_kind_mismatch_witness :
    Item.mergeOne 1 [Item.checklist "a" false [Item.leaf "s" false]]
        (Item.leaf "a" true) = .ok [Item.checklist "a" false [Item.leaf "s" false]]
    ∧ Item.mergeOne 2 [Item.leaf "a" false] (Item.checklist "a" true [])
        = .error .attrError := by
  exact ⟨(C1_merge_kind_mismatch 0 [Item.checklist "a" false [Item.leaf "s" false]]
            (Item.leaf "a" true) 0 (Item.checklist "a" false [Item.leaf "s" false])
            rfl rfl).1 rfl,
         (C1_merge_kind_mismatch 0 [Item.leaf "a" false]
            (Item.checklist "a" true []) 0 (Item.leaf "a" false) rfl rfl).2 rfl rfl⟩

/-! ## Parser scenarios (claims C2, C3, C7) -/

/-- The two files of the C2 scenario. -/
def fsC2 : FS :=
  [("lists/A.ckl", ["from: B", "item1"]), ("lists/B.ckl", ["item1", "item2"])]

/-- C2: parsing file `A` (`from: B` then `item1`) against `B` (`item1`,
`item2`) yields a tree named `A` whose children are exactly `B`'s `item1`
followed by `B`'s `item2`; `A`'s own `item1` line contributes no node
because the final merge direction is `parent.merge(ownTree)` and the
receiver wins on name collision. -/
theorem C2_from_inheritance_scenario :
    (ChecklistParser.load 50 fsC2 "lists/A.ckl" ⟨[], 0⟩).map Prod.fst
      = .ok (.checklist "A" false [.leaf "item1" false, .leaf "item2" false]) := rfl

/-- The file of the C3 counterexample: a leaf `shoes`, a nested line that
re-wraps it into a composite, then a second leaf `shoes`. -/
def fsC3 : FS := [("lists/w.ckl", ["shoes", "  a", "shoes"])]

/-- C3 (counterexample): the parsed tree contains two nodes named `shoes`
(a composite and a leaf), yet the duplicate list of the parse is empty —
the composite created by wrapping is appended without registration and the
wrapped leaf's registration is removed, so this same-named pair never
reaches the duplicate list. -/
theorem C3_counterexample :
    (ChecklistParser.load 50 fsC3 "lists/w.ckl" ⟨[], 0⟩).map
        (fun r => (r.1, ChecklistParser.dups r.2.reg))
      = .ok (.checklist "w" false
              [.checklist "shoes" false [.leaf "a" false], .leaf "shoes" false],
             []) := rfl

/-- The files of the C7 counterexample: an empty line after an item, and a
whitespace-only line after an item. -/
def fsC7a : FS := [("lists/b.ckl", ["a", ""])]

/-- Second C7 file (whitespace-only line, deeper than the current scope). -/
def fsC7b : FS := [("lists/b.ckl", ["a", "  "])]

/-- C7 (counterexample): an empty line is not ignored — it produces an
empty-named leaf; a whitespace-only line is not ignored either — its
leading spaces open a sublist scope, rewrapping the previous item. -/
theorem C7_counterexample :
    (ChecklistParser.load 50 fsC7a "lists/b.ckl" ⟨[], 0⟩).map Prod.fst
      = .ok (.checklist "b" false [.leaf "a" false, .leaf "" false]) ∧
    (ChecklistParser.load 50 fsC7b "lists/b.ckl" ⟨[], 0⟩).map Prod.fst
      = .ok (.checklist "b" false [.checklist "a" false [.leaf "" false]]) :=
  ⟨rfl, rfl⟩

/-- C7 (amended): lines whose first character is `#` are ignored — they
produce no node and leave the working children, accumulated parents,
indentation scope and shared state untouched (only the line counter
advances).  Blank lines are *not* ignored: an empty line at the current
indentation of a scope expecting no indent is parsed as an ordinary item
line and appends an empty-named leaf, registered under the empty name. -/
theorem C7_comment_and_blank_lines :
    (∀ fuel fs path name w parents line lines indent linenum st,
      pyStartsWith line "#" = true →
      ChecklistParser.loads (fuel + 1) fs path name w parents
          (line :: lines) indent linenum st
        = ChecklistParser.loads fuel fs path name w parents lines indent
            (linenum + 1) st) ∧
    (∀ fuel fs path name w parents lines linenum st,
      ChecklistParser.loads (fuel + 1) fs path name w parents
          ("" :: lines) 0 linenum st
        = ChecklistParser.loads fuel fs path name
            (w ++ [(Item.leaf "" false, some st.nextSeq)]) parents lines 0
            (linenum + 1)
            ⟨setdefaultAppend st.reg "" ⟨st.nextSeq, path, linenum + 1⟩,
             st.nextSeq + 1⟩) := by
  constructor
  · intro fuel fs path name w parents line lines indent linenum st h
    simp [ChecklistParser.loads, h]
  · intro fuel fs path name w parents lines linenum st
    rfl

/-- C7 (witness): the comment branch of the amended statement at a concrete
input. -/
theorem C7_comment_and_blank_lines_witness :
    ChecklistParser.loads 3 [] "p" "n" [] [] ["# note"] 0 0 ⟨[], 0⟩
      = ChecklistParser.loads 2 [] "p" "n" [] [] [] 0 1 ⟨[], 0⟩ :=
  C7_comment_and_blank_lines.1 2 [] "p" "n" [] [] "# note" [] 0 0 ⟨[], 0⟩ rfl

/-! ## Session-path derivation (claim C6) -/

/-- C6 (counterexample): for `lists/playlists.ckl` the claim predicts
`sessions/playlists.ckl` (components after the root unaltered), but
`str.replace` substitutes *every* occurrence of `lists`, so the filename
component is rewritten as well. -/
theorem C6_counterexample :
    ChecklistSession.path_to_session "lists/playlists.ckl"
        = "sessions/playsessions.ckl" ∧
    ChecklistSession.path_to_session "lists/playlists.ckl"
        ≠ "sessions/playlists.ckl" := by
  exact ⟨rfl, by decide⟩

/-- Helper: `replace` leaves a string without any occurrence of the pattern
unchanged. -/
theorem replSkip_no_occurrence (pat rep : List Char) :
    ∀ s : List Char, hasPat pat s = false → replSkip pat rep 0 s = s := by
  intro s
  induction s with
  | nil => intro _; rfl
  | cons c cs ih =>
    intro h
    simp [hasPat] at h
    simp [replSkip, h.1, ih h.2]

/-- C6 (amended): the session path is the checklist path with *every*
occurrence of the substring `lists` replaced by `sessions`.  When the part
after the root segment contains no further occurrence of `lists`, this
coincides with swapping only the root directory segment (the case the
original claim described); when it does contain one — see the
counterexample — later components are rewritten too. -/
theorem C6_session_path (s : List Char)
    (h : hasPat LISTS_ROOT.toList s = false) :
    ChecklistSession.path_to_session ⟨LISTS_ROOT.toList ++ '/' :: s⟩
      = ⟨SESSIONS_ROOT.toList ++ '/' :: s⟩ := by
  have key : replSkip LISTS_ROOT.toList SESSIONS_ROOT.toList 0
        (LISTS_ROOT.toList ++ '/' :: s)
      = SESSIONS_ROOT.toList
          ++ '/' :: replSkip LISTS_ROOT.toList SESSIONS_ROOT.toList 0 s := rfl
  calc ChecklistSession.path_to_session ⟨LISTS_ROOT.toList ++ '/' :: s⟩
      = ⟨replSkip LISTS_ROOT.toList SESSIONS_ROOT.toList 0
          (LISTS_ROOT.toList ++ '/' :: s)⟩ := rfl
    _ = ⟨SESSIONS_ROOT.toList
          ++ '/' :: replSkip LISTS_ROOT.toList SESSIONS_ROOT.toList 0 s⟩ := by
        rw [key]
    _ = ⟨SESSIONS_ROOT.toList ++ '/' :: s⟩ := by
        rw [replSkip_no_occurrence _ _ s h]

/-- C6 (witness): the amended statement at `lists/travel.ckl`. -/
theorem C6_session_path_witness :
    ChecklistSession.path_to_session ⟨LISTS_ROOT.toList ++ '/' :: "travel.ckl".toList⟩
      = ⟨SESSIONS_ROOT.toList ++ '/' :: "travel.ckl".toList⟩ :=
  C6_session_path "travel.ckl".toList rfl

/-! ## Serialization round trip (claim C5) -/

mutual
/-- Helper: `from_dict` undoes `to_dict` on any node with stripped names. -/
theorem from_to_dictOne : ∀ t : Item, Item.wfNames t = true →
    from_dict (to_dictOne t) = t
  | .leaf n c, h => by
    simp [Item.wfNames] at h
    simp [to_dictOne, from_dict, h]
  | .checklist n c its, h => by
    simp [Item.wfNames] at h
    simp [to_dictOne, from_dict, h.1, from_to_dictList its h.2]

/-- Helper: `from_dict` undoes `to_dict` on child lists. -/
theorem from_to_dictList : ∀ l : List Item, Item.wfNamesList l = true →
    from_dictList (to_dictList l) = l
  | [], _ => rfl
  | x :: xs, h => by
    simp [Item.wfNamesList] at h
    simp [to_dictList, from_dictList, from_to_dictOne x h.1,
          from_to_dictList xs h.2]
end

/-- C5 (counterexample): the parser CAN produce a tree with an unstripped
name — a `from:` include under a checklist path whose basename carries
surrounding whitespace ends with `self.checklist.name = self.name`, a raw
attribute write of the unstripped basename-derived name.  Deserialization
routes every name through `Item.__init__`, which strips it, so the round
trip hands back a tree whose root name differs from the original's. -/
theorem C5_counterexample :
    (ChecklistParser.load 10
        [("lists/ A .ckl", ["from: B"]), ("lists/B.ckl", ["x"])]
        "lists/ A .ckl" ⟨[], 0⟩).map Prod.fst
      = .ok (Item.checklist " A " false [Item.leaf "x" false])
    ∧ (ChecklistSession.dumps
          (Item.checklist " A " false [Item.leaf "x" false])).map
        ChecklistSession.loads
      = .ok (Item.checklist "A" false [Item.leaf "x" false])
    ∧ Item.name (Item.checklist "A" false [Item.leaf "x" false])
        ≠ Item.name (Item.checklist " A " false [Item.leaf "x" false]) :=
  ⟨rfl, rfl, by decide⟩

/-- C5 (amended): deserializing the serialization of a composite-rooted
tree ALL of whose names are stripped (fixed under `str.strip`) yields the
identical tree: same names, same checked flags, same child order, same
leaf/composite kind everywhere; but the stripped-names condition is not
universal over parser output — a `from:` include writes the parser's
unstripped name raw onto the root, and such a root name comes back
stripped, so the round trip is only flag/structure-faithful in general.
Parse-time metadata (source paths, line numbers, duplicate records) lives
in the parser state, not in the tree, and is therefore absent from the
serialized form. -/
theorem C5_roundtrip (t : Item) (h1 : t.isComposite = true)
    (h2 : Item.wfNames t = true) :
    (ChecklistSession.dumps t).map ChecklistSession.loads = .ok t := by
  cases t with
  | leaf n c => simp [Item.isComposite] at h1
  | checklist n c its =>
    simp [Item.wfNames] at h2
    simp [ChecklistSession.dumps, ChecklistSession.loads, Except.map,
          from_dict, h2.1, from_to_dictList its h2.2]

/-- C5 (witness): the round trip on a small heterogeneous tree. -/
theorem C5_roundtrip_witness :
    (ChecklistSession.dumps
        (.checklist "r" true [.leaf "a" false, .checklist "b" false [.leaf "c" true]])).map
        ChecklistSession.loads
      = .ok (.checklist "r" true
          [.leaf "a" false, .checklist "b" false [.leaf "c" true]]) :=
  C5_roundtrip _ rfl rfl

/-! ## Flat-file registration (claim C3, amended part) -/

/-- A line the parser treats as a plain item at indentation 0: not a
comment, not a `from:` include, no leading spaces. -/
def flatLine (l : String) : Prop :=
  pyStartsWith l "#" = false ∧ pyStartsWith l "from:" = false ∧
    leadingSpaces l = 0

instance (l : String) : Decidable (flatLine l) := by
  unfold flatLine
  infer_instance

/-- The cumulative effect of `add_item` registrations over a run of plain
item lines. -/
def registerAll (path : String) : Nat → PSt → List String → PSt
  | _, st, [] => st
  | ln, st, l :: ls =>
    registerAll path (ln + 1)
      ⟨setdefaultAppend st.reg (pyStrip l) ⟨st.nextSeq, path, ln + 1⟩,
       st.nextSeq + 1⟩ ls

/-- Helper: over a run of plain item lines the loop appends one registered
leaf per line and ends with no remaining input. -/
theorem loads_flat (fs : FS) (path name : String) :
    ∀ (lines : List String) (fuel : Nat), lines.length < fuel →
      (∀ l ∈ lines, flatLine l) →
      ∀ (w : List (Item × Option Nat)) (linenum : Nat) (st : PSt),
      ChecklistParser.loads fuel fs path name w [] lines 0 linenum st
        = .ok ⟨Item.checklist (pyStrip name) false
                (w.map Prod.fst
                  ++ lines.map (fun l => Item.leaf (pyStrip l) false)),
               [], registerAll path linenum st lines⟩ := by
  intro lines
  induction lines with
  | nil =>
    intro fuel hfuel _ w linenum st
    cases fuel with
    | zero => omega
    | succ f =>
      simp [ChecklistParser.loads, ChecklistParser.finish, registerAll]
  | cons l ls ih =>
    intro fuel hfuel hflat w linenum st
    cases fuel with
    | zero => simp at hfuel
    | succ f =>
      obtain ⟨h1, h2, h3⟩ := hflat l (by simp)
      have hrec := ih f (by simp at hfuel; omega)
        (fun x hx => hflat x (by simp [hx]))
        (w ++ [(Item.leaf (pyStrip l) false, some st.nextSeq)]) (linenum + 1)
        ⟨setdefaultAppend st.reg (pyStrip l) ⟨st.nextSeq, path, linenum + 1⟩,
         st.nextSeq + 1⟩
      simp [ChecklistParser.loads, h1, h2, h3]
      rw [hrec]
      simp [registerAll]

/-- The registrations a run of plain lines contributes under one name. -/
def entriesFor (path nm : String) : Nat → Nat → List String → List Reg
  | _, _, [] => []
  | ln, seq, l :: ls =>
    (if pyStrip l == nm then [⟨seq, path, ln + 1⟩] else [])
      ++ entriesFor path nm (ln + 1) (seq + 1) ls

/-- Helper: `setdefaultAppend` appends exactly under the registered name. -/
theorem regLookup_setdefaultAppend (nm n : String) (r : Reg) :
    ∀ m : DupMap, regLookup (setdefaultAppend m nm r) n
      = if nm = n then regLookup m n ++ [r] else regLookup m n := by
  intro m
  induction m with
  | nil =>
    by_cases h : nm = n <;> simp [setdefaultAppend, regLookup, h]
  | cons e m ih =>
    obtain ⟨k, rs⟩ := e
    by_cases hk : k = nm
    · subst hk
      by_cases hn : k = n <;> simp [setdefaultAppend, regLookup, hn]
    · have hknm : (k == nm) = false := by simp [hk]
      by_cases hn : k = n
      · subst hn
        have hnm : ¬ nm = k := fun h => hk h.symm
        simp [setdefaultAppend, regLookup, hknm, hnm]
      · have hkn : (k == n) = false := by simp [hn]
        simp [setdefaultAppend, regLookup, hknm, hkn, ih]

/-- Helper: the occurrence list of a name after a run of plain lines. -/
theorem regLookup_registerAll (path nm : String) :
    ∀ (ls : List String) (ln : Nat) (st : PSt),
      regLookup (registerAll path ln st ls).reg nm
        = regLookup st.reg nm ++ entriesFor path nm ln st.nextSeq ls := by
  intro ls
  induction ls with
  | nil => intro ln st; simp [registerAll, entriesFor]
  | cons l ls ih =>
    intro ln st
    rw [registerAll, ih, entriesFor]
    show regLookup (setdefaultAppend st.reg (pyStrip l) _) nm ++ _ = _
    rw [regLookup_setdefaultAppend]
    by_cases h : pyStrip l = nm <;> simp [h]

/-- Helper: each plain line with the right name contributes its entry. -/
theorem mem_entriesFor (path nm : String) :
    ∀ (ls : List String) (i : Nat) (li : String) (ln seq : Nat),
      ls[i]? = some li → pyStrip li = nm →
      (⟨seq + i, path, ln + i + 1⟩ : Reg) ∈ entriesFor path nm ln seq ls := by
  intro ls
  induction ls with
  | nil => intro i li ln seq h _; simp at h
  | cons l ls ih =>
    intro i li ln seq h hstrip
    cases i with
    | zero =>
      simp at h
      subst h
      simp [entriesFor, hstrip]
    | succ i2 =>
      simp at h
      have hmem := ih i2 li (ln + 1) (seq + 1) h hstrip
      have e1 : seq + 1 + i2 = seq + (i2 + 1) := by omega
      have e2 : ln + 1 + i2 + 1 = ln + (i2 + 1) + 1 := by omega
      rw [e1, e2] at hmem
      show _ ∈ (if pyStrip l == nm then [(⟨seq, path, ln + 1⟩ : Reg)] else [])
        ++ entriesFor path nm (ln + 1) (seq + 1) ls
      exact List.mem_append_right _ hmem

/-- Helper: an occurrence of a multiply-registered name reaches `dups`. -/
theorem mem_dups_of_regLookup (nm : String) (r : Reg) :
    ∀ m : DupMap, r ∈ regLookup m nm → 1 < (regLookup m nm).length →
      (nm, r.path, r.linenum) ∈ ChecklistParser.dups m := by
  intro m
  induction m with
  | nil => intro hr _; simp [regLookup] at hr
  | cons e m ih =>
    obtain ⟨k, rs⟩ := e
    intro hr hlen
    by_cases hk : k = nm
    · subst hk
      simp [regLookup] at hr hlen
      simp [ChecklistParser.dups, hlen]
      left
      exact ⟨r, hr, rfl, rfl⟩
    · have hne : (k == nm) = false := by simp [hk]
      simp [regLookup, hne] at hr hlen
      simp [ChecklistParser.dups]
      right
      exact ih hr hlen

/-- Helper: a list containing two distinct elements has length above one. -/
theorem one_lt_length_of_two_mem {α : Type} {a b : α} :
    ∀ {l : List α}, a ∈ l → b ∈ l → a ≠ b → 1 < l.length := by
  intro l ha hb hab
  match l with
  | [] => simp at ha
  | [x] =>
    simp at ha hb
    exact absurd (ha.trans hb.symm) hab
  | x :: y :: t => simp

/-- C3 (amended): leaf items appended by `add_item` are registered in the
shared duplicate map under their stripped name together with the source
path and 1-based line number, and any two same-named leaf lines of a run
of plain item lines both appear in the duplicate list; but composites
created by wrapping are appended *without* registration and the wrapped
leaf's registration is removed (see the counterexample), so same-named
pairs involving such a composite can be missing from the duplicate list. -/
theorem C3_leaf_duplicate_tracking (fuel : Nat) (fs : FS) (path name : String)
    (w : List (Item × Option Nat)) (lines : List String) (linenum : Nat)
    (st : PSt) (i j : Nat) (li lj : String)
    (hflat : ∀ l ∈ lines, flatLine l)
    (hfuel : lines.length < fuel)
    (hij : i < j)
    (hi : lines[i]? = some li) (hj : lines[j]? = some lj)
    (hname : pyStrip li = pyStrip lj) :
    ChecklistParser.loads fuel fs path name w [] lines 0 linenum st
      = .ok ⟨Item.checklist (pyStrip name) false
              (w.map Prod.fst
                ++ lines.map (fun l => Item.leaf (pyStrip l) false)),
             [], registerAll path linenum st lines⟩
    ∧ (pyStrip li, path, linenum + i + 1)
        ∈ ChecklistParser.dups (registerAll path linenum st lines).reg
    ∧ (pyStrip lj, path, linenum + j + 1)
        ∈ ChecklistParser.dups (registerAll path linenum st lines).reg := by
  have hout := loads_flat fs path name lines fuel hfuel hflat w linenum st
  have hlook := regLookup_registerAll path (pyStrip li) lines linenum st
  have hei := mem_entriesFor path (pyStrip li) lines i li linenum st.nextSeq hi rfl
  have hej := mem_entriesFor path (pyStrip li) lines j lj linenum st.nextSeq hj
    hname.symm
  have hei2 : (⟨st.nextSeq + i, path, linenum + i + 1⟩ : Reg)
      ∈ regLookup (registerAll path linenum st lines).reg (pyStrip li) := by
    rw [hlook]; exact List.mem_append_right _ hei
  have hej2 : (⟨st.nextSeq + j, path, linenum + j + 1⟩ : Reg)
      ∈ regLookup (registerAll path linenum st lines).reg (pyStrip li) := by
    rw [hlook]; exact List.mem_append_right _ hej
  have hlen : 1 < (regLookup (registerAll path linenum st lines).reg
      (pyStrip li)).length := by
    refine one_lt_length_of_two_mem hei2 hej2 ?_
    intro hcontra
    simp [Reg.mk.injEq] at hcontra
    omega
  refine ⟨hout, ?_, ?_⟩
  · exact mem_dups_of_regLookup (pyStrip li) _ _ hei2 hlen
  · rw [← hname]
    exact mem_dups_of_regLookup (pyStrip li) _ _ hej2 hlen

/-- C3 (witness): two `shoes` lines of a three-line flat file both reach the
duplicate list with their 1-based line numbers. -/
theorem C3_leaf_duplicate_tracking_witness :
    ChecklistParser.loads 10 [] "lists/f.ckl" "f" [] []
        ["shoes", "x", "shoes"] 0 0 ⟨[], 0⟩
      = .ok ⟨Item.checklist "f" false
              [.leaf "shoes" false, .leaf "x" false, .leaf "shoes" false],
             [], registerAll "lists/f.ckl" 0 ⟨[], 0⟩ ["shoes", "x", "shoes"]⟩
    ∧ ("shoes", "lists/f.ckl", 1)
        ∈ ChecklistParser.dups
            (registerAll "lists/f.ckl" 0 ⟨[], 0⟩ ["shoes", "x", "shoes"]).reg
    ∧ ("shoes", "lists/f.ckl", 3)
        ∈ ChecklistParser.dups
            (registerAll "lists/f.ckl" 0 ⟨[], 0⟩ ["shoes", "x", "shoes"]).reg := by
  have h := C3_leaf_duplicate_tracking 10 [] "lists/f.ckl" "f" []
    ["shoes", "x", "shoes"] 0 ⟨[], 0⟩ 0 2 "shoes" "shoes"
    (by decide) (by decide) (by decide) rfl rfl rfl
  exact h

/-! ## Basic tree lemmas -/

mutual
/-- Propagating `check` twice keeps only the last value. -/
theorem Item.check_check (b v : Bool) : ∀ t : Item,
    Item.check b (Item.check v t) = Item.check b t
  | .leaf n c => rfl
  | .checklist n c its => by
    simp [Item.check, Item.checkList_checkList b v its]

/-- List version of `check_check`. -/
theorem Item.checkList_checkList (b v : Bool) : ∀ l : List Item,
    Item.checkList b (Item.checkList v l) = Item.checkList b l
  | [] => rfl
  | x :: xs => by
    simp [Item.checkList, Item.check_check b v x, Item.checkList_checkList b v xs]
end

/-- `check` does not change the node kind. -/
theorem Item.isComposite_check (b : Bool) (t : Item) :
    (Item.check b t).isComposite = t.isComposite := by
  cases t <;> rfl

mutual
/-- `check` only touches flags. -/
theorem Item.stripFlags_check (b : Bool) : ∀ t : Item,
    Item.stripFlags (Item.check b t) = Item.stripFlags t
  | .leaf n c => rfl
  | .checklist n c its => by
    simp [Item.check, Item.stripFlags, stripFlagsList_checkList b its]

/-- List version of `stripFlags_check`. -/
theorem stripFlagsList_checkList (b : Bool) : ∀ l : List Item,
    stripFlagsList (Item.checkList b l) = stripFlagsList l
  | [] => rfl
  | x :: xs => by
    simp [Item.checkList, stripFlagsList, Item.stripFlags_check b x,
          stripFlagsList_checkList b xs]
end

/-- `stripFlags` does not change the node kind. -/
theorem Item.isComposite_stripFlags (t : Item) :
    (Item.stripFlags t).isComposite = t.isComposite := by
  cases t <;> rfl

/-- `stripFlags` preserves the name. -/
theorem Item.name_stripFlags (t : Item) :
    (Item.stripFlags t).name = t.name := by
  cases t <;> rfl

mutual
/-- The flattening of a flag-stripped tree is the stripped flattening. -/
theorem Item.items_stripFlags : ∀ t : Item,
    Item.items (Item.stripFlags t) = (Item.items t).map Item.stripFlags
  | .leaf _ _ => rfl
  | .checklist n c its => by
    simp [Item.stripFlags, Item.items, itemsList_stripFlagsList its]

/-- List version of `items_stripFlags`. -/
theorem itemsList_stripFlagsList : ∀ l : List Item,
    Item.itemsList (stripFlagsList l) = (Item.itemsList l).map Item.stripFlags
  | [] => rfl
  | x :: xs => by
    simp [stripFlagsList, Item.itemsList, Item.items_stripFlags x,
          itemsList_stripFlagsList xs]
end

/-- Trees with equal skeletons have equally long flattenings. -/
theorem Item.items_length_of_stripFlags {a b : Item}
    (h : Item.stripFlags a = Item.stripFlags b) :
    (Item.items a).length = (Item.items b).length := by
  have ha := Item.items_stripFlags a
  have hb := Item.items_stripFlags b
  rw [h, hb] at ha
  have hlen := congrArg List.length ha
  simp at hlen
  omega

mutual
/-- Pre-order paths depend only on the skeleton. -/
theorem Item.prePaths_stripFlags : ∀ t : Item,
    Item.prePaths (Item.stripFlags t) = Item.prePaths t
  | .leaf _ _ => rfl
  | .checklist n c its => by
    simp [Item.stripFlags, Item.prePaths, prePathsList_stripFlagsList 0 its]

/-- List version of `prePaths_stripFlags`. -/
theorem prePathsList_stripFlagsList (k : Nat) : ∀ l : List Item,
    prePathsList k (stripFlagsList l) = prePathsList k l
  | [] => rfl
  | x :: xs => by
    simp [stripFlagsList, prePathsList, Item.prePaths_stripFlags x,
          prePathsList_stripFlagsList (k + 1) xs]
end

/-- Trees with equal skeletons have equal pre-order paths. -/
theorem Item.prePaths_congr {a b : Item}
    (h : Item.stripFlags a = Item.stripFlags b) :
    Item.prePaths a = Item.prePaths b := by
  rw [← Item.prePaths_stripFlags a, h, Item.prePaths_stripFlags b]

mutual
/-- As many pre-order paths as flattened items. -/
theorem Item.prePaths_length : ∀ t : Item,
    (Item.prePaths t).length = (Item.items t).length
  | .leaf _ _ => rfl
  | .checklist n c its => by
    simp [Item.prePaths, Item.items, prePathsList_length 0 its]

/-- List version of `prePaths_length`. -/
theorem prePathsList_length (k : Nat) : ∀ l : List Item,
    (prePathsList k l).length = (Item.itemsList l).length
  | [] => rfl
  | x :: xs => by
    simp [prePathsList, Item.itemsList, Item.prePaths_length x,
          prePathsList_length (k + 1) xs]
end

/-- Every pre-order path is non-empty. -/
theorem prePathsList_ne_nil (k : Nat) : ∀ (l : List Item) (q : TPath),
    q ∈ prePathsList k l → q ≠ []
  | x :: xs, q, hq => by
    simp [prePathsList] at hq
    rcases hq with h | h | h
    · simp [h]
    · obtain ⟨r, _, hr⟩ := h
      simp [← hr]
    · exact prePathsList_ne_nil (k + 1) xs q h

/-- Node version of `prePathsList_ne_nil`. -/
theorem Item.prePaths_ne_nil (t : Item) (q : TPath)
    (hq : q ∈ Item.prePaths t) : q ≠ [] := by
  cases t with
  | leaf n c => simp [Item.prePaths] at hq
  | checklist n c its => exact prePathsList_ne_nil 0 its q hq

/-! ## Path addressing lemmas -/

/-- `modIdx` with the identity is the identity. -/
theorem modIdx_id : ∀ (k : Nat) (l : List Item),
    modIdx (fun y => y) k l = l
  | k, [] => by cases k <;> rfl
  | 0, x :: xs => rfl
  | k + 1, x :: xs => by simp [modIdx, modIdx_id k xs]

/-- Two `modIdx` at the same index fuse. -/
theorem modIdx_modIdx (f g : Item → Item) : ∀ (k : Nat) (l : List Item),
    modIdx f k (modIdx g k l) = modIdx (fun y => f (g y)) k l
  | k, [] => by cases k <;> rfl
  | 0, x :: xs => rfl
  | k + 1, x :: xs => by simp [modIdx, modIdx_modIdx f g k xs]

/-- Reading back the modified index. -/
theorem getElem?_modIdx_self (f : Item → Item) : ∀ (k : Nat) (l : List Item),
    (modIdx f k l)[k]? = l[k]?.map f
  | _, [] => by simp [modIdx]
  | 0, x :: xs => by simp [modIdx]
  | k + 1, x :: xs => by simp [modIdx, getElem?_modIdx_self f k xs]

/-- `modIdx` at the length of a prefix rewrites the head of the tail. -/
theorem modIdx_append_cons (f : Item → Item) (y : Item) (ys : List Item) :
    ∀ pre : List Item, modIdx f pre.length (pre ++ y :: ys) = pre ++ f y :: ys
  | [] => rfl
  | x :: pre => by simp [modIdx, modIdx_append_cons f y ys pre]

/-- A fixed point of the update makes `modIdx` the identity. -/
theorem modIdx_eq_self (f : Item → Item) : ∀ (k : Nat) (l : List Item)
    (x : Item), l[k]? = some x → f x = x → modIdx f k l = l
  | _, [], x, hx, _ => by simp at hx
  | 0, y :: ys, x, hx, hfx => by
    simp at hx
    simp [modIdx, hx, hfx]
  | k + 1, y :: ys, x, hx, hfx => by
    simp at hx
    simp [modIdx, modIdx_eq_self f k ys x hx hfx]

/-- `modifyAt` along an append splits into nested updates. -/
theorem Item.modifyAt_append (f : Item → Item) : ∀ (p q : TPath) (t : Item),
    Item.modifyAt f (p ++ q) t = Item.modifyAt (Item.modifyAt f q) p t
  | [], q, t => rfl
  | k :: p, q, .leaf n c => rfl
  | k :: p, q, .checklist n c its => by
    have hcong : modIdx (Item.modifyAt f (p ++ q)) k its
        = modIdx (Item.modifyAt (Item.modifyAt f q) p) k its := by
      have hfun : Item.modifyAt f (p ++ q) = Item.modifyAt (Item.modifyAt f q) p := by
        funext t
        exact Item.modifyAt_append f p q t
      rw [hfun]
    simp [Item.modifyAt, hcong]

/-- Two `modifyAt` at the same path fuse. -/
theorem Item.modifyAt_modifyAt (f g : Item → Item) : ∀ (p : TPath) (t : Item),
    Item.modifyAt f p (Item.modifyAt g p t) = Item.modifyAt (fun y => f (g y)) p t
  | [], t => rfl
  | k :: p, .leaf n c => rfl
  | k :: p, .checklist n c its => by
    have hfun : (fun y => Item.modifyAt f p (Item.modifyAt g p y))
        = Item.modifyAt (fun y => f (g y)) p := by
      funext t
      exact Item.modifyAt_modifyAt f g p t
    simp [Item.modifyAt, modIdx_modIdx, hfun]

/-- Dereferencing the updated path applies the update. -/
theorem Item.lookupAt_modifyAt (f : Item → Item) : ∀ (p : TPath) (t it : Item),
    Item.lookupAt p t = some it →
    Item.lookupAt p (Item.modifyAt f p t) = some (f it)
  | [], t, it, h => by
    simp [Item.lookupAt] at h
    simp [Item.lookupAt, Item.modifyAt, h]
  | k :: p, .leaf n c, it, h => by simp [Item.lookupAt] at h
  | k :: p, .checklist n c its, it, h => by
    rw [Item.lookupAt, Option.bind_eq_some] at h
    obtain ⟨x, hx, hlk⟩ := h
    simp [Item.modifyAt, Item.lookupAt, getElem?_modIdx_self, hx]
    exact Item.lookupAt_modifyAt f p x it hlk

/-- A fixed point of the update makes `modifyAt` the identity. -/
theorem Item.modifyAt_eq_self (f : Item → Item) : ∀ (p : TPath) (t it : Item),
    Item.lookupAt p t = some it → f it = it → Item.modifyAt f p t = t
  | [], t, it, h, hf => by
    simp [Item.lookupAt] at h
    simp [Item.modifyAt, h, hf]
  | k :: p, .leaf n c, it, h, _ => by simp [Item.lookupAt] at h
  | k :: p, .checklist n c its, it, h, hf => by
    rw [Item.lookupAt, Option.bind_eq_some] at h
    obtain ⟨x, hx, hlk⟩ := h
    simp [Item.modifyAt]
    exact modIdx_eq_self _ k its x hx (Item.modifyAt_eq_self f p x it hlk hf)

/-- Skeleton of a child list after a skeleton-preserving `modIdx`. -/
theorem stripFlagsList_modIdx (g : Item → Item)
    (hg : ∀ y, Item.stripFlags (g y) = Item.stripFlags y) :
    ∀ (k : Nat) (l : List Item),
    stripFlagsList (modIdx g k l) = stripFlagsList l
  | k, [] => by cases k <;> rfl
  | 0, x :: xs => by simp [modIdx, stripFlagsList, hg]
  | k + 1, x :: xs => by
    simp [modIdx, stripFlagsList, stripFlagsList_modIdx g hg k xs]

/-- A skeleton-preserving update keeps the skeleton at any path. -/
theorem Item.stripFlags_modifyAt (f : Item → Item)
    (hf : ∀ y, Item.stripFlags (f y) = Item.stripFlags y) :
    ∀ (p : TPath) (t : Item),
    Item.stripFlags (Item.modifyAt f p t) = Item.stripFlags t
  | [], t => hf t
  | k :: p, .leaf n c => rfl
  | k :: p, .checklist n c its => by
    simp [Item.modifyAt, Item.stripFlags]
    exact stripFlagsList_modIdx _ (fun y => Item.stripFlags_modifyAt f hf p y) k its

/-- `checkAt` keeps the skeleton. -/
theorem Item.stripFlags_checkAt (p : TPath) (b : Bool) (t : Item) :
    Item.stripFlags (Item.checkAt p b t) = Item.stripFlags t :=
  Item.stripFlags_modifyAt _ (fun y => Item.stripFlags_check b y) p t

/-- `foldCheck` keeps the skeleton. -/
theorem stripFlags_foldCheck : ∀ (ps : List (TPath × Bool)) (t : Item),
    Item.stripFlags (foldCheck ps t) = Item.stripFlags t
  | [], t => rfl
  | (q, b) :: ps, t => by
    simp [foldCheck, stripFlags_foldCheck ps, Item.stripFlags_checkAt]

/-- Indexing a stripped child list. -/
theorem getElem?_stripFlagsList : ∀ (l : List Item) (k : Nat),
    (stripFlagsList l)[k]? = l[k]?.map Item.stripFlags
  | [], _ => by simp [stripFlagsList]
  | x :: xs, 0 => by simp [stripFlagsList]
  | x :: xs, k + 1 => by simp [stripFlagsList, getElem?_stripFlagsList xs k]

/-- Dereferencing inside a stripped tree. -/
theorem Item.lookupAt_stripFlags : ∀ (p : TPath) (t : Item),
    Item.lookupAt p (Item.stripFlags t) = (Item.lookupAt p t).map Item.stripFlags
  | [], t => by simp [Item.lookupAt]
  | k :: p, .leaf n c => by simp [Item.lookupAt, Item.stripFlags]
  | k :: p, .checklist n c its => by
    simp [Item.lookupAt, Item.stripFlags, getElem?_stripFlagsList]
    cases hx : its[k]? with
    | none => simp
    | some x => simp [Item.lookupAt_stripFlags p x]

/-! ## Sequential flag assignment

`undo_pop`'s restore loop and the reset loop mutate checked flags in
pre-order through shared references; `foldCheck` renders the loop, and
`setFlagsNode` / `setFlagsList` describe its net effect: a pre-order
stream of flags is consumed node by node, and a stream that runs out
(`zip` truncation) leaves the remaining nodes untouched. -/

mutual
/-- Assign a node's own flag and then its descendants' flags from the
stream; return the unconsumed rest. -/
def setFlagsNode : Item → List Bool → Item × List Bool
  | t, [] => (t, [])
  | .leaf n _, b :: bs => (.leaf n b, bs)
  | .checklist n _ its, b :: bs =>
    let r := setFlagsList its bs
    (.checklist n b r.1, r.2)

/-- Assign flags over a child list, left to right. -/
def setFlagsList : List Item → List Bool → List Item × List Bool
  | [], bs => ([], bs)
  | x :: xs, bs =>
    let r := setFlagsNode x bs
    let r2 := setFlagsList xs r.2
    (r.1 :: r2.1, r2.2)
end

/-- Assign flags to the strict descendants only (the node keeps its own). -/
def setDescFlags : Item → List Bool → Item
  | .leaf n c, _ => .leaf n c
  | .checklist n c its, bs => .checklist n c (setFlagsList its bs).1

mutual
/-- A node consumes one flag plus one per descendant. -/
theorem setFlagsNode_snd : ∀ (m : Item) (bs : List Bool),
    (setFlagsNode m bs).2 = bs.drop (1 + (Item.items m).length)
  | m, [] => by cases m <;> simp [setFlagsNode]
  | .leaf n c, b :: bs => by simp [setFlagsNode, Item.items]
  | .checklist n c its, b :: bs => by
    have h := setFlagsList_snd its bs
    simp [setFlagsNode, Item.items, h, Nat.add_comm 1]

/-- A list consumes one flag per flattened item. -/
theorem setFlagsList_snd : ∀ (l : List Item) (bs : List Bool),
    (setFlagsList l bs).2 = bs.drop (Item.itemsList l).length
  | [], bs => by simp [setFlagsList, Item.itemsList]
  | x :: xs, bs => by
    have hx := setFlagsNode_snd x bs
    have hxs := setFlagsList_snd xs (setFlagsNode x bs).2
    rw [hx] at hxs
    simp [setFlagsList, hx, hxs, List.drop_drop, Item.itemsList]
    congr 1
    omega
end

/-- Note: `(Item.items m).length` is invariant under `stripFlags`-equal
replacement, so consumption counts agree between skeleton-equal nodes. -/
theorem items_length_congr {a b : Item}
    (h : Item.stripFlags a = Item.stripFlags b) :
    (Item.items a).length = (Item.items b).length :=
  Item.items_length_of_stripFlags h

mutual
/-- Flags beyond a node's own consumption pass through untouched. -/
theorem setFlagsNode_append : ∀ (m : Item) (bs ext : List Bool),
    1 + (Item.items m).length ≤ bs.length →
    setFlagsNode m (bs ++ ext)
      = ((setFlagsNode m bs).1, (setFlagsNode m bs).2 ++ ext)
  | m, [], ext, h => by simp at h
  | .leaf n c, b :: bs, ext, h => by simp [setFlagsNode]
  | .checklist n c its, b :: bs, ext, h => by
    have hlen : (Item.itemsList its).length ≤ bs.length := by
      simp [Item.items] at h
      omega
    simp [setFlagsNode, setFlagsList_append its bs ext hlen]

/-- List version of `setFlagsNode_append`. -/
theorem setFlagsList_append : ∀ (l : List Item) (bs ext : List Bool),
    (Item.itemsList l).length ≤ bs.length →
    setFlagsList l (bs ++ ext)
      = ((setFlagsList l bs).1, (setFlagsList l bs).2 ++ ext)
  | [], bs, ext, h => by simp [setFlagsList]
  | x :: xs, bs, ext, h => by
    have h1 : 1 + (Item.items x).length ≤ bs.length := by
      simp [Item.itemsList] at h
      omega
    have hrest : (Item.itemsList xs).length ≤ (setFlagsNode x bs).2.length := by
      rw [setFlagsNode_snd]
      simp [Item.itemsList] at h ⊢
      omega
    simp [setFlagsList, setFlagsNode_append x bs ext h1,
          setFlagsList_append xs _ ext hrest]
end

mutual
/-- With enough flags to consume fully, the result depends only on the
skeleton of the node being written. -/
theorem setFlagsNode_congr : ∀ (m m2 : Item) (bs : List Bool),
    Item.stripFlags m = Item.stripFlags m2 →
    1 + (Item.items m).length ≤ bs.length →
    setFlagsNode m bs = setFlagsNode m2 bs
  | m, m2, [], _, h => by simp at h
  | .leaf n c, m2, b :: bs, hm, _ => by
    cases m2 with
    | leaf n2 c2 =>
      simp [Item.stripFlags] at hm
      simp [setFlagsNode, hm]
    | checklist n2 c2 its2 => simp [Item.stripFlags] at hm
  | .checklist n c its, m2, b :: bs, hm, h => by
    cases m2 with
    | leaf n2 c2 => simp [Item.stripFlags] at hm
    | checklist n2 c2 its2 =>
      simp [Item.stripFlags] at hm
      have hlen : (Item.itemsList its).length ≤ bs.length := by
        simp [Item.items] at h
        omega
      simp [setFlagsNode, hm.1, setFlagsList_congr its its2 bs hm.2 hlen]

/-- List version of `setFlagsNode_congr`. -/
theorem setFlagsList_congr : ∀ (l l2 : List Item) (bs : List Bool),
    stripFlagsList l = stripFlagsList l2 →
    (Item.itemsList l).length ≤ bs.length →
    setFlagsList l bs = setFlagsList l2 bs
  | [], l2, bs, hm, _ => by
    cases l2 with
    | nil => rfl
    | cons y ys => simp [stripFlagsList] at hm
  | x :: xs, l2, bs, hm, h => by
    cases l2 with
    | nil => simp [stripFlagsList] at hm
    | cons y ys =>
      simp [stripFlagsList] at hm
      have h1 : 1 + (Item.items x).length ≤ bs.length := by
        simp [Item.itemsList] at h
        omega
      have hx := setFlagsNode_congr x y bs hm.1 h1
      have hrest : (Item.itemsList xs).length ≤ (setFlagsNode y bs).2.length := by
        rw [← hx, setFlagsNode_snd]
        simp [Item.itemsList] at h ⊢
        omega
      simp [setFlagsList, hx, setFlagsList_congr xs ys _ hm.2 hrest]
end

mutual
/-- Writing back a node's recorded own flag and descendant flags restores
the node, whatever value was propagated over it. -/
theorem setFlagsNode_restore (b : Bool) : ∀ (x : Item) (tail : List Bool),
    setFlagsNode (Item.check b x)
        (x.checked :: ((Item.items x).map Item.checked ++ tail))
      = (x, tail)
  | .leaf n c, tail => by
    simp [Item.check, setFlagsNode, Item.items, Item.checked]
  | .checklist n c its, tail => by
    simp [Item.check, setFlagsNode, Item.items, Item.checked,
          setFlagsList_restore b its tail]

/-- List version of `setFlagsNode_restore`. -/
theorem setFlagsList_restore (b : Bool) : ∀ (l : List Item) (tail : List Bool),
    setFlagsList (Item.checkList b l)
        ((Item.itemsList l).map Item.checked ++ tail)
      = (l, tail)
  | [], tail => by simp [Item.checkList, setFlagsList, Item.itemsList]
  | x :: xs, tail => by
    have hx := setFlagsNode_restore b x
      ((Item.itemsList xs).map Item.checked ++ tail)
    have hxs := setFlagsList_restore b xs tail
    simp [Item.checkList, Item.itemsList, setFlagsList] at hx hxs ⊢
    simp [hx, hxs]
end

mutual
/-- Writing an all-`false` stream over a node unchecks it and all its
descendants. -/
theorem setFlagsNode_uncheck : ∀ (m : Item) (tail : List Bool),
    setFlagsNode m
        (false :: (List.replicate (Item.items m).length false ++ tail))
      = (Item.check false m, tail)
  | .leaf n c, tail => by
    simp [setFlagsNode, Item.items, Item.check]
  | .checklist n c its, tail => by
    simp [setFlagsNode, Item.items, Item.check,
          setFlagsList_uncheck its tail]

/-- List version of `setFlagsNode_uncheck`. -/
theorem setFlagsList_uncheck : ∀ (l : List Item) (tail : List Bool),
    setFlagsList l
        (List.replicate (Item.itemsList l).length false ++ tail)
      = (Item.checkList false l, tail)
  | [], tail => by simp [setFlagsList, Item.itemsList, Item.checkList]
  | x :: xs, tail => by
    have hx := setFlagsNode_uncheck x
      (List.replicate (Item.itemsList xs).length false ++ tail)
    have hxs := setFlagsList_uncheck xs tail
    have hsplit : List.replicate (Item.itemsList (x :: xs)).length false ++ tail
        = false :: (List.replicate (Item.items x).length false
            ++ (List.replicate (Item.itemsList xs).length false ++ tail)) := by
      have hlen : (Item.itemsList (x :: xs)).length
          = (Item.items x).length + (Item.itemsList xs).length + 1 := by
        simp [Item.itemsList]
      rw [hlen, List.replicate_succ, List.replicate_add, List.cons_append,
          List.append_assoc]
    rw [hsplit]
    simp [setFlagsList, hx, hxs, Item.checkList]
end

/-- `modifyAt` with the identity is the identity. -/
theorem Item.modifyAt_id : ∀ (p : TPath) (t : Item),
    Item.modifyAt (fun y => y) p t = t
  | [], t => rfl
  | k :: p, .leaf n c => rfl
  | k :: p, .checklist n c its => by
    have h : Item.modifyAt (fun y => y) p = fun y : Item => y := by
      funext y
      exact Item.modifyAt_id p y
    simp [Item.modifyAt, h, modIdx_id]

/-- Lifting a fold of path-addressed checks below a common path prefix. -/
theorem foldCheck_map_path (p : TPath) : ∀ (pairs : List (TPath × Bool)) (t : Item),
    foldCheck (pairs.map (fun pr => (p ++ pr.1, pr.2))) t
      = Item.modifyAt (fun y => foldCheck pairs y) p t
  | [], t => (Item.modifyAt_id p t).symm
  | (q, b) :: ps, t => by
    show foldCheck (ps.map (fun pr => (p ++ pr.1, pr.2)))
        (Item.checkAt (p ++ q) b t) = _
    rw [foldCheck_map_path p ps (Item.checkAt (p ++ q) b t)]
    show Item.modifyAt _ p (Item.modifyAt (Item.check b) (p ++ q) t) = _
    rw [Item.modifyAt_append, Item.modifyAt_modifyAt]
    rfl

/-- `foldCheck` distributes over appended pair lists. -/
theorem foldCheck_append : ∀ (ps1 ps2 : List (TPath × Bool)) (t : Item),
    foldCheck (ps1 ++ ps2) t = foldCheck ps2 (foldCheck ps1 t)
  | [], ps2, t => rfl
  | (q, b) :: ps1, ps2, t => by
    simp [foldCheck, foldCheck_append ps1 ps2]

/-- Skeleton-equal child lists have equally long flattenings. -/
theorem itemsList_length_congr {l l2 : List Item}
    (h : stripFlagsList l = stripFlagsList l2) :
    (Item.itemsList l).length = (Item.itemsList l2).length := by
  have ha := itemsList_stripFlagsList l
  have hb := itemsList_stripFlagsList l2
  rw [h, hb] at ha
  have hlen := congrArg List.length ha
  simp at hlen
  omega

/-- Assigning descendant flags to a freshly propagated node is the same as
streaming one flag for the node itself and then the descendants. -/
theorem setDescFlags_check_eq (mx : Item) (b : Bool) (bs1 : List Bool)
    (h : (Item.items mx).length ≤ bs1.length) :
    setDescFlags (Item.check b mx) bs1 = (setFlagsNode mx (b :: bs1)).1 := by
  cases mx with
  | leaf nm cm => simp [Item.check, setDescFlags, setFlagsNode]
  | checklist nm cm cits =>
    have hstr := stripFlagsList_checkList b cits
    have hlen : (Item.itemsList (Item.checkList b cits)).length ≤ bs1.length := by
      rw [itemsList_length_congr hstr]
      simpa [Item.items] using h
    simp [Item.check, setDescFlags, setFlagsNode,
          setFlagsList_congr _ _ bs1 hstr hlen]

mutual
/-- The net effect of the pre-order `zip`-and-`check` loop: with a flag per
descendant, each descendant of the target receives its streamed flag (later
writes to deeper nodes overwrite the propagation of earlier writes), and
the target's own flag is untouched.  The paths are computed on any
skeleton-equal tree. -/
theorem foldCheck_prePaths : ∀ (t m : Item) (bs : List Bool),
    Item.stripFlags m = Item.stripFlags t →
    bs.length = (Item.items t).length →
    foldCheck ((Item.prePaths t).zip bs) m = setDescFlags m bs
  | .leaf n c, m, bs, hm, _ => by
    cases m with
    | leaf n2 c2 => simp [Item.prePaths, foldCheck, setDescFlags]
    | checklist n2 c2 its2 => simp [Item.stripFlags] at hm
  | .checklist n c its, m, bs, hm, hb => by
    cases m with
    | leaf n2 c2 => simp [Item.stripFlags] at hm
    | checklist n2 c2 mits =>
      simp [Item.stripFlags] at hm
      have h := foldCheck_prePathsList its mits [] n2 c2 bs hm.2
        (by simpa [Item.items] using hb)
      simpa [Item.prePaths, setDescFlags] using h

/-- List-level core of `foldCheck_prePaths`: the loop runs over the paths
of children `pre.length, pre.length + 1, ...` of a composite whose first
`pre.length` children are already processed. -/
theorem foldCheck_prePathsList : ∀ (its mits pre : List Item) (n : String)
    (c : Bool) (bs : List Bool),
    stripFlagsList mits = stripFlagsList its →
    bs.length = (Item.itemsList its).length →
    foldCheck ((prePathsList pre.length its).zip bs)
        (Item.checklist n c (pre ++ mits))
      = Item.checklist n c (pre ++ (setFlagsList mits bs).1)
  | [], mits, pre, n, c, bs, hm, hb => by
    cases mits with
    | cons y ys => simp [stripFlagsList] at hm
    | nil =>
      have hnil : bs = [] := by
        cases bs with
        | nil => rfl
        | cons b bs2 => simp [Item.itemsList] at hb
      subst hnil
      simp [prePathsList, foldCheck, setFlagsList]
  | x :: xs, mits, pre, n, c, bs, hm, hb => by
    cases mits with
    | nil => simp [stripFlagsList] at hm
    | cons mx mxs =>
      simp [stripFlagsList] at hm
      obtain ⟨hm1, hm2⟩ := hm
      cases bs with
      | nil => simp [Item.itemsList] at hb
      | cons b bs2 =>
        have hb2 : bs2.length = (Item.items x).length + (Item.itemsList xs).length := by
          simp [Item.itemsList] at hb
          omega
        have hPlen : (Item.prePaths x).length = (Item.items x).length :=
          Item.prePaths_length x
        have hxle : (Item.prePaths x).length ≤ bs2.length := by omega
        have hbs1len : (bs2.take (Item.prePaths x).length).length
            = (Item.prePaths x).length := by
          simp
          omega
        have hbs3len : (bs2.drop (Item.prePaths x).length).length
            = (Item.itemsList xs).length := by
          simp
          omega
        have hmxlen : (Item.items mx).length = (Item.items x).length :=
          items_length_congr hm1
        -- step 1: unfold one path and one flag
        have hzip2 :
            ((Item.prePaths x).map (fun q => pre.length :: q)
                ++ prePathsList (pre.length + 1) xs).zip bs2
              = ((Item.prePaths x).map (fun q => pre.length :: q)).zip
                    (bs2.take (Item.prePaths x).length)
                ++ (prePathsList (pre.length + 1) xs).zip
                    (bs2.drop (Item.prePaths x).length) := by
          have hz := @List.zip_append _ _
            ((Item.prePaths x).map (fun q => pre.length :: q))
            (prePathsList (pre.length + 1) xs)
            (bs2.take (Item.prePaths x).length)
            (bs2.drop (Item.prePaths x).length)
            (by simp [hbs1len])
          rwa [List.take_append_drop] at hz
        have hsplitzip :
            (prePathsList pre.length (x :: xs)).zip (b :: bs2)
              = ([pre.length], b)
                :: (((Item.prePaths x).map (fun q => pre.length :: q)).zip
                      (bs2.take (Item.prePaths x).length)
                    ++ (prePathsList (pre.length + 1) xs).zip
                        (bs2.drop (Item.prePaths x).length)) := by
          show (([pre.length] :: ((Item.prePaths x).map (fun q => pre.length :: q)
              ++ prePathsList (pre.length + 1) xs)).zip (b :: bs2)) = _
          rw [List.zip_cons_cons, hzip2]
        rw [hsplitzip]
        -- step 2: the head check propagates b over the child mx
        have hstep : Item.checkAt [pre.length] b
            (Item.checklist n c (pre ++ mx :: mxs))
            = Item.checklist n c (pre ++ Item.check b mx :: mxs) := by
          show Item.checklist n c (modIdx (Item.modifyAt (Item.check b) [])
              pre.length (pre ++ mx :: mxs)) = _
          rw [modIdx_append_cons]
          rfl
        show foldCheck _ (Item.checkAt [pre.length] b
          (Item.checklist n c (pre ++ mx :: mxs))) = _
        rw [hstep, foldCheck_append]
        -- step 3: the x-segment acts inside child pre.length
        have hseg1 :
            foldCheck (((Item.prePaths x).map (fun q => pre.length :: q)).zip
                (bs2.take (Item.prePaths x).length))
              (Item.checklist n c (pre ++ Item.check b mx :: mxs))
            = Item.checklist n c
                (pre ++ (setFlagsNode mx (b :: bs2.take (Item.prePaths x).length)).1
                  :: mxs) := by
          rw [List.zip_map_left]
          have hmap : List.map (Prod.map (fun q => pre.length :: q) id)
                ((Item.prePaths x).zip (bs2.take (Item.prePaths x).length))
              = List.map (fun pr => ([pre.length] ++ pr.1, pr.2))
                ((Item.prePaths x).zip (bs2.take (Item.prePaths x).length)) := rfl
          rw [hmap, foldCheck_map_path]
          show Item.checklist n c (modIdx _ pre.length (pre ++ Item.check b mx :: mxs)) = _
          rw [modIdx_append_cons]
          have hinner : foldCheck ((Item.prePaths x).zip
                (bs2.take (Item.prePaths x).length)) (Item.check b mx)
              = setDescFlags (Item.check b mx)
                  (bs2.take (Item.prePaths x).length) := by
            refine foldCheck_prePaths x (Item.check b mx) _ ?_ ?_
            · rw [Item.stripFlags_check, hm1]
            · rw [hbs1len, hPlen]
          show Item.checklist n c (pre ++ (foldCheck ((Item.prePaths x).zip
              (bs2.take (Item.prePaths x).length)) (Item.check b mx)) :: mxs) = _
          rw [hinner, setDescFlags_check_eq mx b _ (by omega)]
        rw [hseg1]
        -- step 4: the xs-segment continues behind the processed child
        have hpre2 : (pre ++ [(setFlagsNode mx
            (b :: bs2.take (Item.prePaths x).length)).1]).length
            = pre.length + 1 := by simp
        have hseg2 := foldCheck_prePathsList xs mxs
          (pre ++ [(setFlagsNode mx (b :: bs2.take (Item.prePaths x).length)).1])
          n c (bs2.drop (Item.prePaths x).length) hm2
          (by rw [hbs3len])
        rw [hpre2] at hseg2
        have hassoc : (pre ++ [(setFlagsNode mx
              (b :: bs2.take (Item.prePaths x).length)).1]) ++ mxs
            = pre ++ (setFlagsNode mx
                (b :: bs2.take (Item.prePaths x).length)).1 :: mxs := by
          simp
        rw [hassoc] at hseg2
        rw [hseg2]
        -- step 5: identify with one streaming pass over mx :: mxs
        have hfull : setFlagsNode mx (b :: bs2)
            = ((setFlagsNode mx (b :: bs2.take (Item.prePaths x).length)).1,
               bs2.drop (Item.prePaths x).length) := by
          have hsplit : (b :: bs2)
              = (b :: bs2.take (Item.prePaths x).length)
                ++ bs2.drop (Item.prePaths x).length := by
            simp
          rw [hsplit, setFlagsNode_append mx _ _ (by simp [hbs1len]; omega)]
          rw [setFlagsNode_snd]
          have hdrop : (b :: bs2.take (Item.prePaths x).length).drop
              (1 + (Item.items mx).length) = [] := by
            apply List.drop_eq_nil_of_le
            simp [hbs1len]
            omega
          rw [hdrop]
          simp
        have hR : (setFlagsList (mx :: mxs) (b :: bs2)).1
            = (setFlagsNode mx (b :: bs2.take (Item.prePaths x).length)).1
              :: (setFlagsList mxs (bs2.drop (Item.prePaths x).length)).1 := by
          simp [setFlagsList, hfull]
        rw [hR]
        simp
end

/-- Writing back a node's own recorded flags restores it exactly. -/
theorem setDescFlags_restore (x : Item) :
    setDescFlags (Item.check x.checked x) ((Item.items x).map Item.checked)
      = x := by
  cases x with
  | leaf n c => simp [Item.check, Item.checked, setDescFlags]
  | checklist n c its =>
    have h := setFlagsList_restore c its []
    simp at h
    simp [Item.check, Item.checked, setDescFlags, Item.items, h]

/-! ## Claim C4: undo of a composite toggle -/

/-- C4: pushing an undo frame for a composite node, then propagating any
value over that node with `check`/`toggle`, then popping, restores the
composite's own prior flag and every descendant's individual prior flag —
descendants are matched to the recorded flags position for position in the
same pre-order used at push time — so the whole control state returns to
exactly what it was. -/
theorem C4_undo_composite_restores (c : Ctl) (p : TPath) (it : Item) (v : Bool)
    (hl : Item.lookupAt p c.tree = some it) (hc : it.isComposite = true) :
    ChecklistControl.undo_pop
        { c with
            tree := Item.checkAt p v c.tree,
            undo_stack := (ChecklistControl.undo_push p c).undo_stack }
      = some (p, c) := by
  have hl1 : Item.lookupAt p (Item.checkAt p v c.tree) = some (Item.check v it) :=
    Item.lookupAt_modifyAt _ p c.tree it hl
  have hcomp1 : (Item.check v it).isComposite = true := by
    rw [Item.isComposite_check]
    exact hc
  have hl2 : Item.lookupAt p (Item.checkAt p it.checked (Item.checkAt p v c.tree))
      = some (Item.check it.checked (Item.check v it)) :=
    Item.lookupAt_modifyAt _ p _ _ hl1
  have hfold : foldCheck
      (((Item.prePaths (Item.check it.checked (Item.check v it))).map
          (fun q => p ++ q)).zip ((Item.items it).map Item.checked))
      (Item.checkAt p it.checked (Item.checkAt p v c.tree)) = c.tree := by
    have hpp : Item.prePaths (Item.check it.checked (Item.check v it))
        = Item.prePaths it := by
      apply Item.prePaths_congr
      rw [Item.stripFlags_check, Item.stripFlags_check]
    rw [hpp]
    have hzm : ((Item.prePaths it).map (fun q => p ++ q)).zip
          ((Item.items it).map Item.checked)
        = ((Item.prePaths it).zip ((Item.items it).map Item.checked)).map
            (fun pr => (p ++ pr.1, pr.2)) := by
      rw [List.zip_map_left]
      rfl
    rw [hzm, foldCheck_map_path]
    show Item.modifyAt _ p (Item.modifyAt (Item.check it.checked) p
        (Item.modifyAt (Item.check v) p c.tree)) = c.tree
    rw [Item.modifyAt_modifyAt, Item.modifyAt_modifyAt]
    apply Item.modifyAt_eq_self _ p c.tree it hl
    show foldCheck ((Item.prePaths it).zip ((Item.items it).map Item.checked))
        (Item.check it.checked (Item.check v it)) = it
    rw [Item.check_check]
    rw [foldCheck_prePaths it (Item.check it.checked it)
        ((Item.items it).map Item.checked) (Item.stripFlags_check _ it)
        (by simp)]
    exact setDescFlags_restore it
  simp [ChecklistControl.undo_push, hl, hc, ChecklistControl.undo_pop,
        ChecklistControl.undo_pop_snapshot, hl1, hcomp1, hl2, hfold]

/-- C4 (witness): push, toggle and pop on a composite with heterogeneous
descendant flags. -/
theorem C4_undo_composite_restores_witness :
    ChecklistControl.undo_pop
        { (⟨.checklist "r" false
              [.checklist "g" true [.leaf "a" true, .leaf "b" false]],
            [], false, 0⟩ : Ctl) with
            tree := Item.checkAt [0] false
              (Item.checklist "r" false
                [.checklist "g" true [.leaf "a" true, .leaf "b" false]]),
            undo_stack := (ChecklistControl.undo_push [0]
              ⟨.checklist "r" false
                [.checklist "g" true [.leaf "a" true, .leaf "b" false]],
               [], false, 0⟩).undo_stack }
      = some ([0], ⟨.checklist "r" false
          [.checklist "g" true [.leaf "a" true, .leaf "b" false]],
          [], false, 0⟩) :=
  C4_undo_composite_restores
    ⟨.checklist "r" false [.checklist "g" true [.leaf "a" true, .leaf "b" false]],
     [], false, 0⟩
    [0] (.checklist "g" true [.leaf "a" true, .leaf "b" false]) false rfl rfl

/-! ## Claim C8: reset -/

/-- Pairing every element with a constant is a `zip` with `replicate`. -/
theorem map_pair_false_eq_zip : ∀ l : List TPath,
    l.map (fun q => (q, false)) = l.zip (List.replicate l.length false)
  | [] => rfl
  | q :: qs => by
    simp [List.replicate_succ, map_pair_false_eq_zip qs]

/-- `adjust_cursor_position` only moves the cursor. -/
theorem ChecklistControl.adjust_tree (c : Ctl) :
    (ChecklistControl.adjust c).tree = c.tree := by
  simp only [ChecklistControl.adjust]
  split_ifs <;> rfl

/-- `adjust_cursor_position` keeps the undo stack. -/
theorem ChecklistControl.adjust_undo (c : Ctl) :
    (ChecklistControl.adjust c).undo_stack = c.undo_stack := by
  simp only [ChecklistControl.adjust]
  split_ifs <;> rfl

/-- `check` writes the requested flag. -/
theorem Item.checked_check (b : Bool) (t : Item) :
    (Item.check b t).checked = b := by
  cases t <;> rfl

mutual
/-- Flattening after a propagated `check`: every flag is the written one. -/
theorem items_check_map (b : Bool) : ∀ t : Item,
    (Item.items (Item.check b t)).map Item.checked
      = List.replicate (Item.items t).length b
  | .leaf _ _ => rfl
  | .checklist n c its => by
    simp [Item.check, Item.items, itemsList_checkList_map b its]

/-- List version of `items_check_map`. -/
theorem itemsList_checkList_map (b : Bool) : ∀ l : List Item,
    (Item.itemsList (Item.checkList b l)).map Item.checked
      = List.replicate (Item.itemsList l).length b
  | [] => rfl
  | x :: xs => by
    have hx := items_check_map b x
    have hxs := itemsList_checkList_map b xs
    have hlen : (Item.itemsList (x :: xs)).length
        = (Item.items x).length + (Item.itemsList xs).length + 1 := by
      simp [Item.itemsList]
    rw [hlen, List.replicate_succ, List.replicate_add]
    simp [Item.checkList, Item.itemsList, Item.checked_check, hx, hxs]
end

/-- C8 (counterexample): resetting a control state whose root checklist
carries a `true` flag unchecks the descendant but leaves the root's own
flag `true` — the reset loop runs over `checklist.items()`, which excludes
the root —, contradicting the claim that every node including the root is
forced to `false`. -/
theorem C8_counterexample :
    (ResetConfirmationDialog.yes_handler
        ⟨.checklist "r" true [.leaf "a" true], [.scalar [0] false], false, 0⟩).1
      = ⟨.checklist "r" true [.leaf "a" false], [], false, 0⟩
    ∧ (Item.checklist "r" true [.leaf "a" false]).checked = true :=
  ⟨rfl, rfl⟩

/-- C8 (amended): the confirmed reset clears the undo stack, unchecks
every flattened item of the tree (composites included), leaves the root
checklist's own name and checked flag untouched, preserves the skeleton,
and persists exactly the serialization of the resulting tree. -/
theorem C8_reset_behaviour (c : Ctl) :
    (ResetConfirmationDialog.yes_handler c).1.undo_stack = [] ∧
    (ResetConfirmationDialog.yes_handler c).1.tree.name = c.tree.name ∧
    (ResetConfirmationDialog.yes_handler c).1.tree.checked = c.tree.checked ∧
    (Item.items (ResetConfirmationDialog.yes_handler c).1.tree).map Item.checked
        = List.replicate (Item.items c.tree).length false ∧
    Item.stripFlags (ResetConfirmationDialog.yes_handler c).1.tree
        = Item.stripFlags c.tree ∧
    (ResetConfirmationDialog.yes_handler c).2
        = ChecklistSession.dumps
            (ResetConfirmationDialog.yes_handler c).1.tree := by
  obtain ⟨t, stk, sc, cy⟩ := c
  have ht1 : foldCheck ((Item.prePaths t).map (fun q => (q, false))) t
      = setDescFlags t (List.replicate (Item.prePaths t).length false) := by
    rw [map_pair_false_eq_zip]
    exact foldCheck_prePaths t t _ rfl (by simp [Item.prePaths_length])
  cases t with
  | leaf n cc =>
    have ht2 : setDescFlags (Item.leaf n cc)
        (List.replicate (Item.prePaths (Item.leaf n cc)).length false)
        = Item.leaf n cc := by
      simp [setDescFlags]
    simp only [ResetConfirmationDialog.yes_handler, ht1, ht2]
    refine ⟨?_, ?_, ?_, ?_, ?_, ?_⟩ <;>
      simp [ChecklistControl.adjust_tree, ChecklistControl.adjust_undo,
            Item.items]
  | checklist n cc its =>
    have h := setFlagsList_uncheck its []
    simp at h
    have ht2 : setDescFlags (Item.checklist n cc its)
        (List.replicate (Item.prePaths (Item.checklist n cc its)).length false)
        = Item.checklist n cc (Item.checkList false its) := by
      simp [setDescFlags, Item.prePaths, prePathsList_length,
            Item.itemsList, h]
    simp only [ResetConfirmationDialog.yes_handler, ht1, ht2]
    refine ⟨?_, ?_, ?_, ?_, ?_, ?_⟩ <;>
      simp [ChecklistControl.adjust_tree, ChecklistControl.adjust_undo,
            Item.items, Item.name, Item.checked, Item.stripFlags,
            itemsList_checkList_map, stripFlagsList_checkList]

/-! ## Claim C9: completing the last unchecked leaf -/

/-- Reading an untouched index. -/
theorem getElem?_modIdx_ne (f : Item → Item) : ∀ (k j : Nat) (l : List Item),
    k ≠ j → (modIdx f k l)[j]? = l[j]?
  | k, j, [], _ => by cases k <;> simp [modIdx]
  | 0, j, x :: xs, h => by
    cases j with
    | zero => exact absurd rfl h
    | succ j2 => simp [modIdx]
  | k + 1, 0, x :: xs, _ => by simp [modIdx]
  | k + 1, j + 1, x :: xs, h => by
    simp [modIdx, getElem?_modIdx_ne f k j xs (fun he => h (by rw [he]))]

mutual
/-- Dereferencing the pre-order paths of a tree enumerates its flattening. -/
theorem lookup_prePaths : ∀ t : Item,
    (Item.prePaths t).map (fun q => Item.lookupAt q t)
      = (Item.items t).map some
  | .leaf _ _ => rfl
  | .checklist n c its => by
    have h := lookup_prePathsList its [] n c
    simpa [Item.prePaths, Item.items] using h

/-- List version of `lookup_prePaths` over the children from a given
offset. -/
theorem lookup_prePathsList : ∀ (its pre : List Item) (n : String) (c : Bool),
    (prePathsList pre.length its).map
        (fun q => Item.lookupAt q (Item.checklist n c (pre ++ its)))
      = (Item.itemsList its).map some
  | [], pre, n, c => rfl
  | x :: xs, pre, n, c => by
    have hk : (pre ++ x :: xs)[pre.length]? = some x := by
      rw [List.getElem?_append_right (Nat.le_refl _)]
      simp
    have hhead : Item.lookupAt [pre.length]
        (Item.checklist n c (pre ++ x :: xs)) = some x := by
      simp [Item.lookupAt, hk]
    have hmid : ((Item.prePaths x).map (fun q => pre.length :: q)).map
          (fun q => Item.lookupAt q (Item.checklist n c (pre ++ x :: xs)))
        = (Item.items x).map some := by
      rw [List.map_map]
      have hcong : ∀ q ∈ Item.prePaths x,
          Item.lookupAt (pre.length :: q) (Item.checklist n c (pre ++ x :: xs))
            = Item.lookupAt q x := by
        intro q _
        simp [Item.lookupAt, hk]
      calc ((Item.prePaths x).map
              ((fun q => Item.lookupAt q (Item.checklist n c (pre ++ x :: xs)))
                ∘ (fun q => pre.length :: q)))
          = (Item.prePaths x).map (fun q => Item.lookupAt q x) :=
            List.map_congr_left hcong
        _ = (Item.items x).map some := lookup_prePaths x
    have htail := lookup_prePathsList xs (pre ++ [x]) n c
    simp only [List.length_append, List.length_cons, List.length_nil,
      List.append_assoc, List.cons_append, List.nil_append] at htail
    simp only [prePathsList, List.map_cons, List.map_append, Item.itemsList]
    rw [hhead, hmid, htail]
    simp
end

/-- Toggling a leaf changes exactly that node's flag. -/
theorem leaf_checkAt_pointwise : ∀ (p : TPath) (t : Item) (nm : String)
    (f b : Bool), Item.lookupAt p t = some (.leaf nm f) →
    ∀ q, (Item.lookupAt q (Item.checkAt p b t)).map Item.checked
      = if q = p then some b else (Item.lookupAt q t).map Item.checked
  | [], t, nm, f, b, hl, q => by
    simp [Item.lookupAt] at hl
    subst hl
    cases q with
    | nil => simp [Item.checkAt, Item.modifyAt, Item.lookupAt, Item.check,
        Item.checked]
    | cons j q2 => simp [Item.checkAt, Item.modifyAt, Item.lookupAt, Item.check]
  | k :: p2, .leaf n0 c0, nm, f, b, hl, q => by simp [Item.lookupAt] at hl
  | k :: p2, .checklist n0 c0 l, nm, f, b, hl, q => by
    rw [Item.lookupAt, Option.bind_eq_some] at hl
    obtain ⟨x, hx, hlk⟩ := hl
    cases q with
    | nil =>
      simp [Item.checkAt, Item.modifyAt, Item.lookupAt, Item.checked]
    | cons j q2 =>
      by_cases hjk : j = k
      · subst hjk
        have hIH := leaf_checkAt_pointwise p2 x nm f b hlk q2
        simp only [Item.checkAt] at hIH
        simp [Item.checkAt, Item.modifyAt, Item.lookupAt,
              getElem?_modIdx_self, hx, hIH]
      · have hne : (modIdx (Item.modifyAt (Item.check b) p2) k l)[j]? = l[j]? :=
          getElem?_modIdx_ne _ k j l (fun he => hjk he.symm)
        have hqp : (j :: q2) ≠ (k :: p2) := by
          intro he
          injection he with h1 _
          exact hjk h1
        simp [Item.checkAt, Item.modifyAt, Item.lookupAt, hne, hqp]

/-- Updating below the root keeps the root's own flag. -/
theorem Item.checked_modifyAt_cons (f : Item → Item) (k : Nat) (p : TPath)
    (t : Item) : (Item.modifyAt f (k :: p) t).checked = t.checked := by
  cases t <;> rfl

/-- `undo_push` only changes the stack. -/
theorem ChecklistControl.undo_push_tree (p : TPath) (c : Ctl) :
    (ChecklistControl.undo_push p c).tree = c.tree := by
  simp only [ChecklistControl.undo_push]
  cases Item.lookupAt p c.tree with
  | none => rfl
  | some it => by_cases h : it.isComposite = true <;> simp [h]

/-- C9 (counterexample): toggling the only unchecked leaf does show the
completed dialog, yet the set of unchecked nodes of the *whole* tree is
not empty afterwards — the root checklist node itself is still unchecked
(the completion test runs over `checklist.items()`, which excludes the
root). -/
theorem C9_counterexample :
    ChecklistControl.onSpace
        ⟨.checklist "r" false [.leaf "a" false], [], false, 0⟩
      = some (⟨.checklist "r" false [.leaf "a" true],
               [.scalar [0] false], false, 0⟩, true)
    ∧ ((Item.checklist "r" false [.leaf "a" true])
        :: Item.items (Item.checklist "r" false [.leaf "a" true])).any
          (fun i => !i.checked) = true :=
  ⟨rfl, rfl⟩

/-- C9 (amended): with the unchecked-only filter active and a single
displayed path pointing at an unchecked leaf under the cursor, the space
toggle reports completion; completion is decided by the flattened
descendant list (empty unchecked set among `items()`), while the root
checklist node's own flag is not consulted and stays what it was. -/
theorem C9_toggle_last_leaf (c : Ctl) (p : TPath) (nm : String)
    (hsc : c.show_completed = false)
    (hdp : ChecklistControl.displayedPaths c = [p])
    (hleaf : Item.lookupAt p c.tree = some (.leaf nm false))
    (hcy : c.cursorY = 0) :
    ((ChecklistControl.onSpace c).map Prod.snd = some true)
    ∧ ((ChecklistControl.onSpace c).map (fun r => r.1.tree)
        = some (Item.checkAt p true c.tree))
    ∧ (Item.checkAt p true c.tree).checked = c.tree.checked
    ∧ (Item.items (Item.checkAt p true c.tree)).filter
        (fun i => !i.checked) = [] := by
  -- the toggled tree
  have hpoint := leaf_checkAt_pointwise p c.tree nm false true hleaf
  have hstrip : Item.stripFlags (Item.checkAt p true c.tree)
      = Item.stripFlags c.tree := Item.stripFlags_checkAt p true c.tree
  have hpp : Item.prePaths (Item.checkAt p true c.tree)
      = Item.prePaths c.tree := Item.prePaths_congr hstrip
  -- p is one of the pre-order paths, hence non-empty
  have hpmem : p ∈ Item.prePaths c.tree := by
    have : p ∈ ChecklistControl.displayedPaths c := by
      rw [hdp]
      simp
    simp [ChecklistControl.displayedPaths, hsc] at this
    exact this.1
  have hpne : p ≠ [] := Item.prePaths_ne_nil c.tree p hpmem
  -- every flattened item of the toggled tree is checked
  have hall : ∀ i ∈ Item.items (Item.checkAt p true c.tree),
      i.checked = true := by
    intro i hi
    have hmap := lookup_prePaths (Item.checkAt p true c.tree)
    have hsome : some i ∈ (Item.items (Item.checkAt p true c.tree)).map some :=
      List.mem_map_of_mem some hi
    rw [← hmap, hpp] at hsome
    obtain ⟨q, hq, hlq⟩ := List.mem_map.mp hsome
    have hchk := hpoint q
    rw [hlq] at hchk
    by_cases hqp : q = p
    · rw [if_pos hqp] at hchk
      simpa using hchk
    · rw [if_neg hqp] at hchk
      have hpred : (match Item.lookupAt q c.tree with
          | some it => !it.checked
          | none => false) = false := by
        by_contra hcontra
        have hqmem : q ∈ ChecklistControl.displayedPaths c := by
          simp [ChecklistControl.displayedPaths, hsc]
          exact ⟨hq, by revert hcontra; cases Item.lookupAt q c.tree <;> simp⟩
        rw [hdp] at hqmem
        simp at hqmem
        exact hqp hqmem
      cases hlqc : Item.lookupAt q c.tree with
      | none => rw [hlqc] at hchk; simp at hchk
      | some itq =>
        rw [hlqc] at hchk hpred
        simp at hpred hchk
        rw [hchk, hpred]
  have hfilter : (Item.items (Item.checkAt p true c.tree)).filter
      (fun i => !i.checked) = [] := by
    rw [List.filter_eq_nil_iff]
    intro a ha
    simp [hall a ha]
  -- the root flag is untouched
  have hroot : (Item.checkAt p true c.tree).checked = c.tree.checked := by
    cases p with
    | nil => exact absurd rfl hpne
    | cons k p2 => exact Item.checked_modifyAt_cons _ k p2 c.tree
  -- unfold the handler
  have hne : (ChecklistControl.displayedPaths c).isEmpty = false := by
    rw [hdp]
    rfl
  have hidx : (ChecklistControl.displayedPaths c)[c.cursorY]? = some p := by
    rw [hdp, hcy]
    rfl
  have htree1 : (ChecklistControl.undo_push p c).tree = c.tree :=
    ChecklistControl.undo_push_tree p c
  refine ⟨?_, ?_, hroot, hfilter⟩
  · simp only [ChecklistControl.onSpace, hne, hidx, hleaf, htree1]
    simp [ChecklistControl.adjust_tree, htree1, Item.checked, hfilter]
    exact hall
  · simp only [ChecklistControl.onSpace, hne, hidx, hleaf, htree1]
    simp [ChecklistControl.adjust_tree, htree1, Item.checked, hfilter]

/-- C9 (witness): the amended statement on a two-leaf checklist whose only
unchecked leaf is under the cursor. -/
theorem C9_toggle_last_leaf_witness :
    ((ChecklistControl.onSpace
        ⟨.checklist "r" false [.leaf "a" false, .leaf "b" true],
         [], false, 0⟩).map Prod.snd = some true)
    ∧ ((ChecklistControl.onSpace
        ⟨.checklist "r" false [.leaf "a" false, .leaf "b" true],
         [], false, 0⟩).map (fun r => r.1.tree)
        = some (Item.checkAt [0] true
            (Item.checklist "r" false [.leaf "a" false, .leaf "b" true])))
    ∧ (Item.checkAt [0] true
        (Item.checklist "r" false [.leaf "a" false, .leaf "b" true])).checked
        = (Item.checklist "r" false [.leaf "a" false, .leaf "b" true]).checked
    ∧ (Item.items (Item.checkAt [0] true
        (Item.checklist "r" false [.leaf "a" false, .leaf "b" true]))).filter
        (fun i => !i.checked) = [] :=
  C9_toggle_last_leaf
    ⟨.checklist "r" false [.leaf "a" false, .leaf "b" true], [], false, 0⟩
    [0] "a" rfl rfl rfl rfl

/-! ## Claim C10: undo-stack pairing invariant -/

/-- `stackOK` depends on the tree only through its skeleton. -/
theorem stackOK_congr (t t2 : Item)
    (h : Item.stripFlags t = Item.stripFlags t2) :
    ∀ fs : List Frame, stackOK t fs = stackOK t2 fs
  | [] => rfl
  | .snap _ _ :: _ => rfl
  | .scalar p b :: rest => by
    have hl : (Item.lookupAt p t).map Item.stripFlags
        = (Item.lookupAt p t2).map Item.stripFlags := by
      rw [← Item.lookupAt_stripFlags, ← Item.lookupAt_stripFlags, h]
    cases hx : Item.lookupAt p t with
    | none =>
      cases hx2 : Item.lookupAt p t2 with
      | none => simp [stackOK, hx, hx2]
      | some it2 =>
        rw [hx, hx2] at hl
        simp at hl
    | some it =>
      cases hx2 : Item.lookupAt p t2 with
      | none =>
        rw [hx, hx2] at hl
        simp at hl
      | some it2 =>
        rw [hx, hx2] at hl
        simp at hl
        have hcomp : it2.isComposite = it.isComposite := by
          rw [← Item.isComposite_stripFlags it2, ← hl,
              Item.isComposite_stripFlags]
        cases hc : it.isComposite with
        | false =>
          have hc2 : it2.isComposite = false := by rw [hcomp, hc]
          simp [stackOK, hx, hx2, hc, hc2, stackOK_congr t t2 h rest]
        | true =>
          have hc2 : it2.isComposite = true := by rw [hcomp, hc]
          cases rest with
          | nil => simp [stackOK, stackSnapOK, hx, hx2, hc, hc2]
          | cons f2 rest2 =>
            cases f2 with
            | snap p2 bs =>
              simp [stackOK, stackSnapOK, hx, hx2, hc, hc2,
                    stackOK_congr t t2 h rest2]
            | scalar p2 b2 => simp [stackOK, stackSnapOK, hx, hx2, hc, hc2]

/-- Popping from a well-formed non-empty stack always succeeds, pops the
scalar frame (plus, for a composite, exactly its snapshot frame directly
beneath), and preserves well-formedness. -/
theorem undo_pop_spec (c : Ctl) (p : TPath) (b : Bool) (rest : List Frame)
    (hok : stackOK c.tree c.undo_stack = true)
    (hstk : c.undo_stack = .scalar p b :: rest) :
    ∃ it c2, Item.lookupAt p c.tree = some it
      ∧ ChecklistControl.undo_pop c = some (p, c2)
      ∧ stackOK c2.tree c2.undo_stack = true
      ∧ (it.isComposite = false → c2.undo_stack = rest)
      ∧ (it.isComposite = true →
          ∃ bs rest2, rest = Frame.snap p bs :: rest2
            ∧ c2.undo_stack = rest2) := by
  rw [hstk] at hok
  cases hx : Item.lookupAt p c.tree with
  | none => simp [stackOK, hx] at hok
  | some it =>
    have hl1 := Item.lookupAt_modifyAt (Item.check b) p c.tree it hx
    cases hc : it.isComposite with
    | false =>
      simp [stackOK, hx, hc] at hok
      refine ⟨it, (⟨Item.checkAt p b c.tree, rest, c.show_completed,
          c.cursorY⟩ : Ctl),
        rfl, ?_, ?_, fun _ => rfl, fun hcontra => by rw [hcontra] at hc; cases hc⟩
      · simp [ChecklistControl.undo_pop, hstk, hx, hc]
      · show stackOK (Item.checkAt p b c.tree) rest = true
        rw [stackOK_congr _ c.tree (Item.stripFlags_checkAt p b c.tree) rest]
        exact hok
    | true =>
      cases rest with
      | nil => simp [stackOK, stackSnapOK, hx, hc] at hok
      | cons f2 rest2 =>
        cases f2 with
        | scalar p2 b2 => simp [stackOK, stackSnapOK, hx, hc] at hok
        | snap p2 bs =>
          simp [stackOK, stackSnapOK, hx, hc] at hok
          obtain ⟨hpp, hok2⟩ := hok
          subst hpp
          have hl2 : Item.lookupAt p (Item.checkAt p b c.tree)
              = some (Item.check b it) := hl1
          refine ⟨it, (⟨foldCheck
              (((Item.prePaths (Item.check b it)).map (fun q => p ++ q)).zip bs)
              (Item.checkAt p b c.tree), rest2, c.show_completed,
              c.cursorY⟩ : Ctl),
            rfl, ?_, ?_, ?_, ?_⟩
          · simp [ChecklistControl.undo_pop,
                  ChecklistControl.undo_pop_snapshot, hstk, hx, hc, hl2]
          · show stackOK _ rest2 = true
            have hstrip : Item.stripFlags (foldCheck
                (((Item.prePaths (Item.check b it)).map (fun q => p ++ q)).zip bs)
                (Item.checkAt p b c.tree)) = Item.stripFlags c.tree := by
              rw [stripFlags_foldCheck, Item.stripFlags_checkAt]
            rw [stackOK_congr _ c.tree hstrip rest2]
            exact hok2
          · intro hcontra; rw [hcontra] at hc; cases hc
          · intro _; exact ⟨bs, rest2, rfl, rfl⟩

/-- A push or a guarded pop from a well-formed state succeeds and keeps the
stack well-formed. -/
theorem undoStep_preserves (c : Ctl) (op : UndoOp)
    (h : stackOK c.tree c.undo_stack = true) :
    ∃ c2, undoStep c op = some c2 ∧ stackOK c2.tree c2.undo_stack = true := by
  cases op with
  | push p =>
    refine ⟨ChecklistControl.undo_push p c, rfl, ?_⟩
    simp only [ChecklistControl.undo_push]
    cases hx : Item.lookupAt p c.tree with
    | none => exact h
    | some it =>
      cases hc : it.isComposite with
      | true => simp [stackOK, stackSnapOK, hx, hc, h]
      | false => simp [stackOK, stackSnapOK, hx, hc, h]
  | pop =>
    cases hstk : c.undo_stack with
    | nil =>
      refine ⟨c, ?_, h⟩
      simp [undoStep, hstk]
    | cons f rest =>
      cases f with
      | snap p bs =>
        rw [hstk] at h
        simp [stackOK] at h
      | scalar p b =>
        obtain ⟨it, c2, _, hpop, hok2, _, _⟩ := undo_pop_spec c p b rest h hstk
        refine ⟨c2, ?_, hok2⟩
        simp [undoStep, hstk, hpop]

/-- Any sequence of undo-stack steps from a well-formed state succeeds and
ends well-formed. -/
theorem undoRun_preserves : ∀ (ops : List UndoOp) (c : Ctl),
    stackOK c.tree c.undo_stack = true →
    ∃ c2, undoRun c ops = some c2 ∧ stackOK c2.tree c2.undo_stack = true
  | [], c, h => ⟨c, rfl, h⟩
  | op :: ops, c, h => by
    obtain ⟨c1, hstep, h1⟩ := undoStep_preserves c op h
    obtain ⟨c2, hrun, h2⟩ := undoRun_preserves ops c1 h1
    exact ⟨c2, by simp [undoRun, hstep, hrun], h2⟩

/-- C10: starting from an empty undo stack, any sequence of `undo_push` and
guarded `undo_pop` steps leaves the stack well formed — the top of every
suffix is a `(item, bool)` frame, and a composite's scalar frame has its own
snapshot frame directly beneath it — and from any reachable state whose top
frame is `(item, bool)`, `undo_pop` succeeds and removes exactly that one
frame when the item is a leaf and exactly two frames (the scalar and its
matching snapshot) when it is a composite. -/
theorem C10_undo_stack_pairing (t : Item) (sc : Bool) (cy : Nat)
    (ops : List UndoOp) (c : Ctl)
    (hrun : undoRun ⟨t, [], sc, cy⟩ ops = some c) :
    stackOK c.tree c.undo_stack = true
    ∧ ∀ p b rest, c.undo_stack = Frame.scalar p b :: rest →
        ∃ it c2, Item.lookupAt p c.tree = some it
          ∧ ChecklistControl.undo_pop c = some (p, c2)
          ∧ (it.isComposite = false → c2.undo_stack = rest)
          ∧ (it.isComposite = true →
              ∃ bs rest2, rest = Frame.snap p bs :: rest2
                ∧ c2.undo_stack = rest2) := by
  have h0 : stackOK (⟨t, [], sc, cy⟩ : Ctl).tree
      (⟨t, [], sc, cy⟩ : Ctl).undo_stack = true := by
    show stackOK t [] = true
    simp [stackOK]
  obtain ⟨c2, hrun2, hok⟩ := undoRun_preserves ops ⟨t, [], sc, cy⟩ h0
  rw [hrun] at hrun2
  injection hrun2 with h
  subst h
  refine ⟨hok, ?_⟩
  intro p b rest hstk
  obtain ⟨it, c3, h1, h2, _, h4, h5⟩ := undo_pop_spec c p b rest hok hstk
  exact ⟨it, c3, h1, h2, h4, h5⟩

/-- C10 (witness): one push of the single leaf of a one-leaf checklist
reaches a state whose stack is well formed, and the corresponding pop
removes exactly that one frame. -/
theorem C10_undo_stack_pairing_witness :
    stackOK (Item.checklist "root" false [Item.leaf "a" false])
        [Frame.scalar [0] false] = true
    ∧ ∃ it c2,
        Item.lookupAt [0] (Item.checklist "root" false [Item.leaf "a" false])
          = some it
        ∧ ChecklistControl.undo_pop
            (⟨Item.checklist "root" false [Item.leaf "a" false],
              [Frame.scalar [0] false], false, 0⟩ : Ctl) = some ([0], c2)
        ∧ (it.isComposite = false → c2.undo_stack = [])
        ∧ (it.isComposite = true →
            ∃ bs rest2, ([] : List Frame) = Frame.snap [0] bs :: rest2
              ∧ c2.undo_stack = rest2) := by
  obtain ⟨hok, hpop⟩ := C10_undo_stack_pairing
    (Item.checklist "root" false [Item.leaf "a" false]) false 0
    [UndoOp.push [0]]
    (⟨Item.checklist "root" false [Item.leaf "a" false],
      [Frame.scalar [0] false], false, 0⟩ : Ctl) rfl
  exact ⟨hok, hpop [0] false [] rfl⟩
